import Mathlib

/-!
Verification model for the `NiclasEich/uproot3` repository snapshot.

Core A (`src/newwriter.py`): an incremental ROOT file writer that maintains a
web of byte offsets (`fBEGIN`, `fEND`, `fSeekInfo`, `fSeekFree`, `fSeekKeys`)
inside a single growable byte buffer, relocating the streamer table and the
key list when they run out of headroom.

Core B (`src/uproot/partition.py`): a partition planner (`PartitionSet.fill`)
that greedily grows per-branch basket runs into cross-file partitions, a JSON
(de)serializer for `PartitionSet`, and a pull-driven `iterator` that yields
one record per partition.

The writer's byte sink (`write/sink.py` and the record classes under
`write/`) and the tree reader consumed by the planner are external to the
two source files; they are modelled from the spec as parameters (record
constructors and encodings for the sink, branch/basket tables for the tree
reader).  Everything else is transcribed from the Python source.
-/

namespace UprootModel

/-! ### Core A: data model of `src/newwriter.py` -/

/-- Fixed expansion headroom, `self.expander = 500` in `NewWriter.__init__`. -/
def expander : Int := 500

/-- Exponent for capacity growth, `self.expanderpow = 2`. -/
def expanderpow : Nat := 2

/-- Header fields used by the writer (a projection of `write/header.py`). -/
structure HeaderRec where
  fBEGIN : Int
  fEND : Int
  fSeekFree : Int
  fSeekInfo : Int
  fNbytesInfo : Int
  fNbytesName : Int
  fCompress : Int
deriving DecidableEq, Repr

/-- Directory-info fields (`write/directoryinfo.py` projection). -/
structure DirRec where
  fNbytesKeys : Int
  fNbytesName : Int
  fSeekKeys : Int
deriving DecidableEq, Repr

/-- The size fields shared by every key variant, plus the object name. -/
structure KeyRec where
  fNbytes : Int
  fKeylen : Int
  fObjlen : Int
  fSeekKey : Int
  name : String
deriving DecidableEq, Repr

/-- A byte buffer: the byte stored at each absolute offset.  Offsets are
integers because the Python source computes them with ordinary `int`
arithmetic. -/
def Buf : Type := Int → Nat

/-- Patch `bs` into the buffer starting at offset `off`. -/
def writeBytes (buf : Buf) (off : Int) (bs : List Nat) : Buf :=
  fun i => if 0 ≤ i - off ∧ i - off < (bs.length : Int) then bs.getD (i - off).toNat 0 else buf i

/-- Copy `len` bytes from offset `src` to offset `dst`
(`self.file[dst:dst+len] = self.file[src:src+len]`); the source slice is
read from the pre-state. -/
def copyRange (buf : Buf) (dst src len : Int) : Buf :=
  fun i => if dst ≤ i ∧ i < dst + len then buf (src + (i - dst)) else buf i

/-- Big-endian 4-byte encoding of a (nonnegative) counter, the `">i"` packer
of `sink.set_numbers`. -/
def be32 (n : Int) : List Nat :=
  let m := (n % 4294967296).toNat
  [m / 16777216 % 256, m / 65536 % 256, m / 256 % 256, m % 256]

/-- Read back a big-endian 4-byte integer from the buffer. -/
def readBE32 (buf : Buf) (off : Int) : Nat :=
  buf off * 16777216 + buf (off + 1) * 65536 + buf (off + 2) * 256 + buf (off + 3)

/-- Modelled from the spec: the byte sink of §6 and the record constructors
under `write/` are not part of the two source files.  Each `mk…` field is the
external record constructor (it fixes the record's initial size fields), and
each `enc…` field is the sink's serialization of that record; a sink call
advances the cursor by the length of the encoding it writes. -/
structure SinkModel where
  mkHeader : String → Int → HeaderRec
  encHeader : HeaderRec → List Nat
  mkBeginKey : String → KeyRec
  encBeginKey : KeyRec → List Nat
  encStrings : String → List Nat
  encDir : DirRec → List Nat
  mkStreamerKey : Int → Int → KeyRec
  encStreamerKey : KeyRec → List Nat
  allStreamersBytes : List Nat
  mkHeadKey : Int → Int → String → KeyRec
  encHeadKey : KeyRec → List Nat
  mkJunkKey : String → KeyRec
  encJunkKey : KeyRec → List Nat
  encObj : String → List Nat
  mkStringKey : String → Int → KeyRec
  encStringKey : KeyRec → List Nat
  tobjStreamerBytes : List Nat

/-- The value passed to `NewWriter.__setitem__`: either a `TObjString`
holding a string, or a value of any other type. -/
inductive WItem where
  | tobj (s : String)
  | other
deriving DecidableEq, Repr

/-- Trace of the observable writer actions of one call, tagged by purpose
with the offsets the source computes. -/
inductive WOp where
  | placeJunkKey (off : Int)
  | placeObject (off : Int)
  | placeStringKey (off : Int)
  | relocateKeys (dst : Int) (src : Int)
  | relocateStreamers (dst : Int) (src : Int)
  | writeStreamer (off : Int)
  | patchNkeys (off : Int) (n : Int)
  | patchDirectory (off : Int)
  | patchHeadKey (off : Int)
  | patchHeader
  | flushFile
deriving DecidableEq, Repr

/-- The mutable state of a `NewWriter` object: the buffer plus every offset
attribute the Python object carries. -/
structure NewWriter where
  buf : Buf
  header : HeaderRec
  directory : DirRec
  directory_pointcheck : Int
  head_key : KeyRec
  head_key_pointcheck : Int
  head_key_end : Int
  keystart : Int
  keyend : Int
  keylimit : Int
  streamerend : Int
  streamerlimit : Int
  nkeys : Int
  streamers : List String
  cursor : Int

/-- Name tail after the last `/`, i.e. `filename[(filename.rfind("/")+1):]`. -/
def basename (s : String) : String :=
  (s.splitOn "/").getLastD s

/-- `NewWriter.__init__` (lines 20–111 of `src/newwriter.py`), transcribed
step by step: header, begin-key (written twice), junk strings, directory
info, streamer key (written twice), streamer table with `expander` bytes of
headroom, key list region with `expander` bytes of headroom holding the head
key and the big-endian `nkeys = 0` counter, then the final header patch. -/
def NewWriter.init (sm : SinkModel) (filename : String) : NewWriter :=
  let bytename := basename filename
  let buf : Buf := fun _ => 0
  let header := sm.mkHeader bytename 0
  let buf := writeBytes buf 0 (sm.encHeader header)
  -- self.cursor = Cursor(self.header.fBEGIN)
  let c := header.fBEGIN
  let pointcheck := c
  let key := sm.mkBeginKey bytename
  let buf := writeBytes buf c (sm.encBeginKey key)
  let c := c + ((sm.encBeginKey key).length : Int)
  let key := { key with fKeylen := c - pointcheck }
  let key := { key with fObjlen := key.fNbytes - key.fKeylen }
  let buf := writeBytes buf pointcheck (sm.encBeginKey key)
  -- junk strings
  let buf := writeBytes buf c (sm.encStrings bytename)
  let c := c + ((sm.encStrings bytename).length : Int)
  -- directory info
  let directory_pointcheck := c
  let directory : DirRec := { fNbytesKeys := 0, fNbytesName := header.fNbytesName, fSeekKeys := 0 }
  let buf := writeBytes buf c (sm.encDir directory)
  let c := c + ((sm.encDir directory).length : Int)
  let header := { header with fSeekInfo := c }
  -- streamer key, written twice
  let pointcheck := c
  let skey := sm.mkStreamerKey c 0
  let buf := writeBytes buf c (sm.encStreamerKey skey)
  let c := c + ((sm.encStreamerKey skey).length : Int)
  let skey := { skey with fKeylen := c - pointcheck }
  let skey := { skey with fNbytes := skey.fKeylen + skey.fObjlen }
  let buf := writeBytes buf pointcheck (sm.encStreamerKey skey)
  let header := { header with fNbytesInfo := skey.fNbytes }
  let buf := writeBytes buf 0 (sm.encHeader header)
  -- allocate space for streamers
  let streamerstart := c
  let buf := writeBytes buf c sm.allStreamersBytes
  let c := c + (sm.allStreamersBytes.length : Int)
  let streamerend := c
  let streamerlimit := c + expander
  let c := streamerstart + expander
  -- directory.fSeekKeys points to the head key
  let directory := { directory with fSeekKeys := c }
  let buf := writeBytes buf directory_pointcheck (sm.encDir directory)
  -- allocate space for keys
  let keystart := c
  let keylimit := keystart + expander
  -- head key
  let head_key_pointcheck := c
  let hk := sm.mkHeadKey directory.fNbytesKeys directory.fSeekKeys bytename
  let buf := writeBytes buf c (sm.encHeadKey hk)
  let c := c + ((sm.encHeadKey hk).length : Int)
  let head_key_end := c
  -- number of keys
  let nkeys : Int := 0
  let buf := writeBytes buf c (be32 nkeys)
  let c := c + 4
  let keyend := c
  let header := { header with fSeekFree := c }
  let header := { header with fEND := header.fSeekFree + expander }
  let buf := writeBytes buf 0 (sm.encHeader header)
  { buf := buf, header := header, directory := directory,
    directory_pointcheck := directory_pointcheck, head_key := hk,
    head_key_pointcheck := head_key_pointcheck, head_key_end := head_key_end,
    keystart := keystart, keyend := keyend, keylimit := keylimit,
    streamerend := streamerend, streamerlimit := streamerlimit,
    nkeys := nkeys, streamers := [], cursor := c }

/-- First statement of `__setitem__`: `self.cursor = Cursor(self.header.fEND)`. -/
def NewWriter.startInsert (s : NewWriter) : NewWriter :=
  { s with cursor := s.header.fEND }

/-- Lines 122–133: place the junk key (written twice) followed by the
`TObjString` payload at the cursor. -/
def NewWriter.placePayload (sm : SinkModel) (s : NewWriter) (keyname str : String) :
    NewWriter × List WOp :=
  let pointcheck := s.cursor
  let junk := sm.mkJunkKey keyname
  let buf := writeBytes s.buf s.cursor (sm.encJunkKey junk)
  let c := s.cursor + ((sm.encJunkKey junk).length : Int)
  let junk := { junk with fKeylen := c - pointcheck }
  let junk := { junk with fNbytes := junk.fKeylen + junk.fObjlen }
  let buf := writeBytes buf pointcheck (sm.encJunkKey junk)
  let buf := writeBytes buf c (sm.encObj str)
  let c := c + ((sm.encObj str).length : Int)
  ({ s with buf := buf, cursor := c }, [WOp.placeJunkKey pointcheck, WOp.placeObject c])

/-- Lines 139–147, the key-list capacity check: when `keylimit - keyend < 200`
the `expander`-byte key-list region at `directory.fSeekKeys` is copied to the
old `fEND`, `keyend` is rebased, `fSeekKeys`, `keylimit`, `fEND` and
`fSeekFree` are updated, and the directory record is re-patched at
`directory_pointcheck`.  Otherwise nothing happens. -/
def NewWriter.keyRelocStep (sm : SinkModel) (s : NewWriter) : NewWriter × List WOp :=
  if s.keylimit - s.keyend < 200 then
    let oldEND := s.header.fEND
    let buf := copyRange s.buf oldEND s.directory.fSeekKeys expander
    let keyend := oldEND + s.keyend - s.directory.fSeekKeys
    let oldSeek := s.directory.fSeekKeys
    let directory := { s.directory with fSeekKeys := oldEND }
    let keylimit := oldEND + expander ^ expanderpow
    let header := { s.header with fEND := keylimit, fSeekFree := keylimit }
    let buf := writeBytes buf s.directory_pointcheck (sm.encDir directory)
    ({ s with
        buf := buf, keyend := keyend, directory := directory,
        keylimit := keylimit, header := header },
     [WOp.relocateKeys oldEND oldSeek, WOp.patchDirectory s.directory_pointcheck])
  else (s, [])

/-- Lines 149–153: append the string key at `keyend` (written twice). -/
def NewWriter.placeStringKey (sm : SinkModel) (s : NewWriter) (key0 : KeyRec) :
    NewWriter × List WOp :=
  let pointcheck := s.keyend
  let buf := writeBytes s.buf s.keyend (sm.encStringKey key0)
  let keyend := s.keyend + ((sm.encStringKey key0).length : Int)
  let key := { key0 with fKeylen := keyend - pointcheck }
  let key := { key with fNbytes := key.fKeylen + key.fObjlen }
  let buf := writeBytes buf pointcheck (sm.encStringKey key)
  ({ s with buf := buf, keyend := keyend }, [WOp.placeStringKey pointcheck])

/-- Lines 156–171: if `"TObjString"` is not yet registered, register it and
emit its streamer record at `streamerend`, relocating the streamer region
first when `streamerlimit - streamerend < 500`. -/
def NewWriter.streamerStep (sm : SinkModel) (s : NewWriter) : NewWriter × List WOp :=
  if "TObjString" ∈ s.streamers then (s, [])
  else
    let streamers := s.streamers ++ ["TObjString"]
    if s.streamerlimit - s.streamerend < 500 then
      let oldEND := s.header.fEND
      let oldSeek := s.header.fSeekInfo
      let buf := copyRange s.buf oldEND s.header.fSeekInfo expander
      let streamerend := oldEND + s.streamerend - s.header.fSeekInfo
      let header := { s.header with fSeekInfo := oldEND }
      let streamerlimit := oldEND + expander ^ expanderpow
      let header := { header with fEND := streamerlimit, fSeekFree := streamerlimit }
      let buf := writeBytes buf streamerend sm.tobjStreamerBytes
      let wOff := streamerend
      let streamerend := streamerend + (sm.tobjStreamerBytes.length : Int)
      ({ s with
          buf := buf, streamers := streamers, streamerend := streamerend,
          streamerlimit := streamerlimit, header := header },
       [WOp.relocateStreamers oldEND oldSeek, WOp.writeStreamer wOff])
    else
      let buf := writeBytes s.buf s.streamerend sm.tobjStreamerBytes
      let wOff := s.streamerend
      let streamerend := s.streamerend + (sm.tobjStreamerBytes.length : Int)
      ({ s with buf := buf, streamers := streamers, streamerend := streamerend },
       [WOp.writeStreamer wOff])

/-- Lines 173–195: increment `nkeys` and patch it at `head_key_end`, refresh
and re-patch the directory and the head key, raise `fSeekFree`/`fEND` to the
cursor when the cursor ran past `fEND`, patch the header, and flush. -/
def NewWriter.updateTail (sm : SinkModel) (s : NewWriter) : NewWriter × List WOp :=
  let nkeys := s.nkeys + 1
  let buf := writeBytes s.buf s.head_key_end (be32 nkeys)
  let directory := { s.directory with fNbytesKeys := s.header.fEND - s.keyend }
  let buf := writeBytes buf s.directory_pointcheck (sm.encDir directory)
  let hk := { s.head_key with fNbytes := directory.fNbytesKeys,
                              fKeylen := s.head_key_end - s.head_key_pointcheck }
  let hk := { hk with fObjlen := hk.fNbytes - hk.fKeylen }
  let buf := writeBytes buf s.head_key_pointcheck (sm.encHeadKey hk)
  let header :=
    if s.cursor > s.header.fEND then
      { s.header with fSeekFree := s.cursor, fEND := s.cursor }
    else s.header
  let buf := writeBytes buf 0 (sm.encHeader header)
  ({ s with
      buf := buf, nkeys := nkeys, directory := directory,
      head_key := hk, header := header },
   [WOp.patchNkeys s.head_key_end nkeys, WOp.patchDirectory s.directory_pointcheck,
    WOp.patchHeadKey s.head_key_pointcheck, WOp.patchHeader, WOp.flushFile])

/-- `NewWriter.__setitem__` (lines 114–195): for a `TObjString` place the
object, check key-list capacity, append the string key, maybe emit the
streamer record; for any other value skip all of that.  Either way run the
tail updates. -/
def NewWriter.setitem (sm : SinkModel) (s : NewWriter) (keyname : String) (item : WItem) :
    NewWriter × List WOp :=
  let s0 := s.startInsert
  match item with
  | WItem.other => NewWriter.updateTail sm s0
  | WItem.tobj str =>
    let pointcheck := s0.cursor
    let r1 := NewWriter.placePayload sm s0 keyname str
    let key0 := sm.mkStringKey keyname pointcheck
    let r2 := NewWriter.keyRelocStep sm r1.1
    let r3 := NewWriter.placeStringKey sm r2.1 key0
    let r4 := NewWriter.streamerStep sm r3.1
    let r5 := NewWriter.updateTail sm r4.1
    (r5.1, r1.2 ++ r2.2 ++ r3.2 ++ r4.2 ++ r5.2)

/-- Run a whole insert sequence from a fresh writer, collecting the trace. -/
def NewWriter.run (sm : SinkModel) (filename : String) (items : List (String × WItem)) :
    NewWriter × List WOp :=
  items.foldl
    (fun acc it =>
      let r := NewWriter.setitem sm acc.1 it.1 it.2
      (r.1, acc.2 ++ r.2))
    (NewWriter.init sm filename, [])

/-- A concrete sink instance used to evaluate the writer on explicit inputs:
every record constructor fills plausible fixed initial fields and every
encoding has a fixed positive width (key widths chosen so that the key-list
relocation of `__setitem__` fires on the third insert). -/
def smTest : SinkModel :=
  { mkHeader := fun _ _ =>
      { fBEGIN := 100, fEND := 0, fSeekFree := 0, fSeekInfo := 0,
        fNbytesInfo := 0, fNbytesName := 40, fCompress := 0 }
    encHeader := fun _ => List.replicate 100 1
    mkBeginKey := fun n => { fNbytes := 90, fKeylen := 0, fObjlen := 0, fSeekKey := 0, name := n }
    encBeginKey := fun _ => List.replicate 70 2
    encStrings := fun _ => List.replicate 10 3
    encDir := fun _ => List.replicate 40 4
    mkStreamerKey := fun c _ => { fNbytes := 0, fKeylen := 0, fObjlen := 30, fSeekKey := c, name := "" }
    encStreamerKey := fun _ => List.replicate 50 5
    allStreamersBytes := List.replicate 30 6
    mkHeadKey := fun nb sk n => { fNbytes := nb, fKeylen := 0, fObjlen := 0, fSeekKey := sk, name := n }
    encHeadKey := fun _ => List.replicate 60 7
    mkJunkKey := fun n => { fNbytes := 0, fKeylen := 0, fObjlen := 20, fSeekKey := 0, name := n }
    encJunkKey := fun _ => List.replicate 50 8
    encObj := fun _ => List.replicate 20 9
    mkStringKey := fun n sk => { fNbytes := 0, fKeylen := 0, fObjlen := 20, fSeekKey := sk, name := n }
    encStringKey := fun _ => List.replicate 130 10
    tobjStreamerBytes := List.replicate 100 11 }

/-- Three string inserts; the third one triggers the key-list relocation. -/
def c1Items : List (String × WItem) :=
  [("a", WItem.tobj "x"), ("b", WItem.tobj "y"), ("c", WItem.tobj "z")]

/-- Writer state after the three inserts of `c1Items`. -/
def c1State : NewWriter := (NewWriter.run smTest "f.root" c1Items).1

set_option maxRecDepth 100000

/-- C1: after every insert, the buffer at the current `directory.fSeekKeys`
should hold the head-key followed by a big-endian int32 equal to the number
of insert calls so far, even across key-list relocations.  Evaluating the
writer at a failing input: after the three inserts of `c1Items` (the third
triggers the key-list relocation), `nkeys = 3`, but the int32 right after
the head-key width (60 bytes) at the relocated `fSeekKeys = 1474` still
reads `2`, because `__setitem__` patches the counter at the never-rebased
`head_key_end = 830` inside the abandoned old region (where it reads `3`). -/
theorem C1_nkeys_stale_after_relocation :
    c1Items.length = 3 ∧
    c1State.nkeys = 3 ∧
    c1State.directory.fSeekKeys = 1474 ∧
    c1State.head_key_end = 830 ∧
    (smTest.encHeadKey c1State.head_key).length = 60 ∧
    readBE32 c1State.buf (c1State.directory.fSeekKeys + 60) = 2 ∧
    readBE32 c1State.buf c1State.head_key_end = 3 := by
  decide

theorem expander_pow_eq : expander ^ expanderpow = 250000 := by decide

/-- C5: behaviour of the key-list capacity check (lines 139–147).  When
`keylimit - keyend < 200`, exactly `expander = 500` bytes are copied from the
old key-list region at `directory.fSeekKeys` to the old `fEND`, `keyend` is
rebased so that its offset inside the region is preserved, `fSeekKeys`
becomes the old `fEND`, the new capacity limit is the old `fEND + 250000`,
`fEND` and `fSeekFree` are both set to that limit, and the directory is
re-patched at `directory_pointcheck`; otherwise the step changes nothing.
The hypothesis keeps the directory patch clear of the relocation target,
which holds for every real layout since the directory record sits far below
`fEND`. -/
theorem C5_key_capacity_check (sm : SinkModel) (s : NewWriter)
    (hdisj : s.directory_pointcheck +
      ((sm.encDir { s.directory with fSeekKeys := s.header.fEND }).length : Int) ≤ s.header.fEND) :
    (s.keylimit - s.keyend < 200 →
      (NewWriter.keyRelocStep sm s).1.directory.fSeekKeys = s.header.fEND ∧
      (NewWriter.keyRelocStep sm s).1.keyend = s.header.fEND + s.keyend - s.directory.fSeekKeys ∧
      (NewWriter.keyRelocStep sm s).1.keyend - (NewWriter.keyRelocStep sm s).1.directory.fSeekKeys
        = s.keyend - s.directory.fSeekKeys ∧
      (NewWriter.keyRelocStep sm s).1.keylimit = s.header.fEND + 250000 ∧
      (NewWriter.keyRelocStep sm s).1.header.fEND = s.header.fEND + 250000 ∧
      (NewWriter.keyRelocStep sm s).1.header.fSeekFree = s.header.fEND + 250000 ∧
      (NewWriter.keyRelocStep sm s).2 =
        [WOp.relocateKeys s.header.fEND s.directory.fSeekKeys,
         WOp.patchDirectory s.directory_pointcheck] ∧
      (∀ j : Int, 0 ≤ j → j < expander →
        (NewWriter.keyRelocStep sm s).1.buf (s.header.fEND + j)
          = s.buf (s.directory.fSeekKeys + j))) ∧
    (¬ s.keylimit - s.keyend < 200 → NewWriter.keyRelocStep sm s = (s, [])) := by
  have hexp : (expander : Int) = 500 := rfl
  constructor
  · intro hcond
    have hstep : NewWriter.keyRelocStep sm s =
        ({ s with
            buf := writeBytes (copyRange s.buf s.header.fEND s.directory.fSeekKeys expander)
              s.directory_pointcheck (sm.encDir { s.directory with fSeekKeys := s.header.fEND }),
            keyend := s.header.fEND + s.keyend - s.directory.fSeekKeys,
            directory := { s.directory with fSeekKeys := s.header.fEND },
            keylimit := s.header.fEND + 250000,
            header := { s.header with
              fEND := s.header.fEND + 250000, fSeekFree := s.header.fEND + 250000 } },
         [WOp.relocateKeys s.header.fEND s.directory.fSeekKeys,
          WOp.patchDirectory s.directory_pointcheck]) := by
      simp only [NewWriter.keyRelocStep, if_pos hcond, expander_pow_eq]
    rw [hstep]
    refine ⟨rfl, rfl, by ring, rfl, rfl, rfl, rfl, ?_⟩
    intro j hj0 hje
    have h1 : ¬ (0 ≤ s.header.fEND + j - s.directory_pointcheck ∧
        s.header.fEND + j - s.directory_pointcheck <
          ((sm.encDir { s.directory with fSeekKeys := s.header.fEND }).length : Int)) := by
      omega
    have h2 : s.header.fEND ≤ s.header.fEND + j ∧
        s.header.fEND + j < s.header.fEND + expander := by
      omega
    show writeBytes (copyRange s.buf s.header.fEND s.directory.fSeekKeys expander)
        s.directory_pointcheck (sm.encDir { s.directory with fSeekKeys := s.header.fEND })
        (s.header.fEND + j) = s.buf (s.directory.fSeekKeys + j)
    simp only [writeBytes, copyRange]
    rw [if_neg h1, if_pos h2]
    congr 1
    ring
  · intro hcond
    simp only [NewWriter.keyRelocStep, if_neg hcond]

/-- Writer state on which the capacity check fires: after the first two
inserts of `c1Items` the key region holds `1270 - 1094 = 176 < 200` spare
bytes. -/
def c5State : NewWriter := (NewWriter.run smTest "f.root" (c1Items.take 2)).1

/-- Witness for C5 at a concrete writer state whose capacity check fires. -/
theorem C5_key_capacity_check_witness :
    (c5State.directory_pointcheck +
      ((smTest.encDir { c5State.directory with fSeekKeys := c5State.header.fEND }).length : Int)
        ≤ c5State.header.fEND) ∧
    c5State.keylimit - c5State.keyend < 200 ∧
    (NewWriter.keyRelocStep smTest c5State).1.directory.fSeekKeys = c5State.header.fEND :=
  ⟨by decide, by decide,
    ((C5_key_capacity_check smTest c5State (by decide)).1 (by decide)).1⟩

/-- The two header fields of interest never decrease between two states. -/
def WMono (a b : NewWriter) : Prop :=
  a.header.fSeekFree ≤ b.header.fSeekFree ∧ a.header.fEND ≤ b.header.fEND

/-- Running invariant of the writer: `fSeekFree ≤ fEND`. -/
def WInv (s : NewWriter) : Prop :=
  s.header.fSeekFree ≤ s.header.fEND

theorem WMono.refl (s : NewWriter) : WMono s s := ⟨le_refl _, le_refl _⟩

theorem startInsert_mono (s : NewWriter) :
    WMono s s.startInsert ∧ (WInv s → WInv s.startInsert) := by
  exact ⟨WMono.refl _, fun h => h⟩

theorem placePayload_mono (sm : SinkModel) (s : NewWriter) (k str : String) :
    WMono s (NewWriter.placePayload sm s k str).1 ∧
      (WInv s → WInv (NewWriter.placePayload sm s k str).1) := by
  exact ⟨WMono.refl _, fun h => h⟩

theorem keyRelocStep_mono (sm : SinkModel) (s : NewWriter) (hinv : WInv s) :
    WMono s (NewWriter.keyRelocStep sm s).1 ∧ WInv (NewWriter.keyRelocStep sm s).1 := by
  unfold NewWriter.keyRelocStep
  split
  · refine ⟨⟨?_, ?_⟩, ?_⟩ <;> simp only [expander_pow_eq, WInv] <;>
      first
        | exact le_trans hinv (by omega)
        | omega
  · exact ⟨WMono.refl _, hinv⟩

theorem placeStringKey_mono (sm : SinkModel) (s : NewWriter) (key0 : KeyRec) :
    WMono s (NewWriter.placeStringKey sm s key0).1 ∧
      (WInv s → WInv (NewWriter.placeStringKey sm s key0).1) := by
  exact ⟨WMono.refl _, fun h => h⟩

theorem streamerStep_mono (sm : SinkModel) (s : NewWriter) (hinv : WInv s) :
    WMono s (NewWriter.streamerStep sm s).1 ∧ WInv (NewWriter.streamerStep sm s).1 := by
  unfold NewWriter.streamerStep
  split
  · exact ⟨WMono.refl _, hinv⟩
  · split
    · refine ⟨⟨?_, ?_⟩, ?_⟩ <;> simp only [expander_pow_eq, WInv] <;>
        first
          | exact le_trans hinv (by omega)
          | omega
    · exact ⟨WMono.refl _, hinv⟩

theorem updateTail_mono (sm : SinkModel) (s : NewWriter) (hinv : WInv s) :
    WMono s (NewWriter.updateTail sm s).1 ∧ WInv (NewWriter.updateTail sm s).1 := by
  unfold NewWriter.updateTail
  by_cases hc : s.cursor > s.header.fEND
  · simp only [if_pos hc]
    exact ⟨⟨le_trans hinv (le_of_lt hc), le_of_lt hc⟩, le_refl _⟩
  · simp only [if_neg hc]
    exact ⟨WMono.refl _, hinv⟩

/-- The intermediate states that one `__setitem__` call passes through, in
execution order (cursor reset, object placement, key-list capacity check,
string-key placement, streamer step, tail updates). -/
def NewWriter.phaseStates (sm : SinkModel) (s : NewWriter) (keyname : String) (item : WItem) :
    List NewWriter :=
  let s0 := s.startInsert
  match item with
  | WItem.other => [s0, (NewWriter.updateTail sm s0).1]
  | WItem.tobj str =>
    let pointcheck := s0.cursor
    let s1 := (NewWriter.placePayload sm s0 keyname str).1
    let key0 := sm.mkStringKey keyname pointcheck
    let s2 := (NewWriter.keyRelocStep sm s1).1
    let s3 := (NewWriter.placeStringKey sm s2 key0).1
    let s4 := (NewWriter.streamerStep sm s3).1
    let s5 := (NewWriter.updateTail sm s4).1
    [s0, s1, s2, s3, s4, s5]

/-- Every phase-intermediate state of every insert of a run, in order. -/
def NewWriter.statesAfter (sm : SinkModel) : NewWriter → List (String × WItem) → List NewWriter
  | _, [] => []
  | s, it :: rest =>
    NewWriter.phaseStates sm s it.1 it.2 ++
      NewWriter.statesAfter sm (NewWriter.setitem sm s it.1 it.2).1 rest

theorem chain_glue {α : Type _} {R : α → α → Prop} :
    ∀ (l1 : List α) (s t : α) (l2 : List α),
      List.Chain' R (s :: l1) → (s :: l1).getLast? = some t → List.Chain' R (t :: l2) →
      List.Chain' R (s :: l1 ++ l2) := by
  intro l1
  induction l1 with
  | nil =>
    intro s t l2 _ hlast h2
    have : s = t := by simpa using hlast
    subst this
    simpa using h2
  | cons a l1 ih =>
    intro s t l2 h1 hlast h2
    have h1' := List.chain'_cons.1 h1
    have hlast' : (a :: l1).getLast? = some t := by
      simpa [List.getLast?_cons_cons] using hlast
    have := ih a t l2 h1'.2 hlast' h2
    exact List.chain'_cons.2 ⟨h1'.1, this⟩

theorem phaseStates_chain (sm : SinkModel) (s : NewWriter) (k : String) (it : WItem)
    (hinv : WInv s) :
    List.Chain' WMono (s :: NewWriter.phaseStates sm s k it) ∧
      (s :: NewWriter.phaseStates sm s k it).getLast? = some (NewWriter.setitem sm s k it).1 ∧
      WInv (NewWriter.setitem sm s k it).1 := by
  cases it with
  | other =>
    have h0 := startInsert_mono s
    have h1 := updateTail_mono sm s.startInsert (h0.2 hinv)
    refine ⟨?_, rfl, h1.2⟩
    exact List.chain'_cons.2 ⟨h0.1, List.chain'_cons.2 ⟨h1.1, List.chain'_singleton _⟩⟩
  | tobj str =>
    have h0 := startInsert_mono s
    have hinv0 := h0.2 hinv
    have h1 := placePayload_mono sm s.startInsert k str
    have hinv1 := h1.2 hinv0
    have h2 := keyRelocStep_mono sm (NewWriter.placePayload sm s.startInsert k str).1 hinv1
    have h3 := placeStringKey_mono sm
      (NewWriter.keyRelocStep sm (NewWriter.placePayload sm s.startInsert k str).1).1
      (sm.mkStringKey k s.startInsert.cursor)
    have hinv3 := h3.2 h2.2
    have h4 := streamerStep_mono sm _ hinv3
    have h5 := updateTail_mono sm _ h4.2
    refine ⟨?_, rfl, h5.2⟩
    exact List.chain'_cons.2 ⟨h0.1, List.chain'_cons.2 ⟨h1.1, List.chain'_cons.2 ⟨h2.1,
      List.chain'_cons.2 ⟨h3.1, List.chain'_cons.2 ⟨h4.1,
        List.chain'_cons.2 ⟨h5.1, List.chain'_singleton _⟩⟩⟩⟩⟩⟩

theorem statesAfter_chain (sm : SinkModel) (items : List (String × WItem)) :
    ∀ s : NewWriter, WInv s → List.Chain' WMono (s :: NewWriter.statesAfter sm s items) := by
  induction items with
  | nil => intro s _; exact List.chain'_singleton _
  | cons it rest ih =>
    intro s hinv
    have hph := phaseStates_chain sm s it.1 it.2 hinv
    have hrest := ih (NewWriter.setitem sm s it.1 it.2).1 hph.2.2
    show List.Chain' WMono (s :: (NewWriter.phaseStates sm s it.1 it.2 ++
      NewWriter.statesAfter sm (NewWriter.setitem sm s it.1 it.2).1 rest))
    exact chain_glue _ s _ _ hph.1 hph.2.1 hrest

/-- C7: across construction and any insert sequence, `fSeekFree` and `fEND`
are monotonically non-decreasing at every internal step.  The hypotheses pin
down the external header constructor: it initializes `fSeekFree` and `fEND`
to zero and places `fBEGIN` at a nonnegative offset.  The conclusion says
the constructor leaves both fields at nonnegative values with
`fSeekFree ≤ fEND`, and that the whole sequence of phase-intermediate states
of every subsequent `__setitem__` call (cursor reset, payload placement,
key-list relocation, string-key placement, streamer relocation, final
cursor check) is a `≤`-chain in both fields. -/
theorem C7_fSeekFree_fEND_monotone (sm : SinkModel) (fn : String)
    (items : List (String × WItem))
    (hfree : (sm.mkHeader (basename fn) 0).fSeekFree = 0)
    (hend : (sm.mkHeader (basename fn) 0).fEND = 0)
    (hbegin : 0 ≤ (sm.mkHeader (basename fn) 0).fBEGIN) :
    ((sm.mkHeader (basename fn) 0).fSeekFree ≤ (NewWriter.init sm fn).header.fSeekFree ∧
      (sm.mkHeader (basename fn) 0).fEND ≤ (NewWriter.init sm fn).header.fEND ∧
      (NewWriter.init sm fn).header.fSeekFree ≤ (NewWriter.init sm fn).header.fEND) ∧
    List.Chain' WMono
      (NewWriter.init sm fn :: NewWriter.statesAfter sm (NewWriter.init sm fn) items) := by
  have hinit : (sm.mkHeader (basename fn) 0).fSeekFree ≤ (NewWriter.init sm fn).header.fSeekFree ∧
      (sm.mkHeader (basename fn) 0).fEND ≤ (NewWriter.init sm fn).header.fEND ∧
      (NewWriter.init sm fn).header.fSeekFree ≤ (NewWriter.init sm fn).header.fEND := by
    have hexp : expander = 500 := rfl
    rw [hfree, hend]
    simp only [NewWriter.init]
    refine ⟨?_, ?_, ?_⟩ <;> omega
  exact ⟨hinit, statesAfter_chain sm items (NewWriter.init sm fn) hinit.2.2⟩

/-- Witness for C7 at the concrete sink instance and a two-insert run with a
mixed item list. -/
theorem C7_fSeekFree_fEND_monotone_witness :
    (smTest.mkHeader (basename "f.root") 0).fSeekFree = 0 ∧
    (smTest.mkHeader (basename "f.root") 0).fEND = 0 ∧
    0 ≤ (smTest.mkHeader (basename "f.root") 0).fBEGIN ∧
    List.Chain' WMono
      (NewWriter.init smTest "f.root" ::
        NewWriter.statesAfter smTest (NewWriter.init smTest "f.root")
          [("a", WItem.tobj "x"), ("b", WItem.other)]) :=
  ⟨by decide, by decide, by decide,
    (C7_fSeekFree_fEND_monotone smTest "f.root" [("a", WItem.tobj "x"), ("b", WItem.other)]
      (by decide) (by decide) (by decide)).2⟩

/-- Whether a `__setitem__` argument is a `TObjString`. -/
def WItem.isTObjString : WItem → Bool
  | WItem.tobj _ => true
  | WItem.other => false

/-- Whether a trace entry is an object-payload write. -/
def WOp.isPlaceObject : WOp → Bool
  | WOp.placeObject _ => true
  | _ => false

theorem keyRelocStep_nkeys (sm : SinkModel) (s : NewWriter) :
    (NewWriter.keyRelocStep sm s).1.nkeys = s.nkeys := by
  unfold NewWriter.keyRelocStep
  split <;> rfl

theorem streamerStep_nkeys (sm : SinkModel) (s : NewWriter) :
    (NewWriter.streamerStep sm s).1.nkeys = s.nkeys := by
  unfold NewWriter.streamerStep
  split
  · rfl
  · split <;> rfl

theorem setitem_nkeys (sm : SinkModel) (s : NewWriter) (k : String) (it : WItem) :
    (NewWriter.setitem sm s k it).1.nkeys = s.nkeys + 1 := by
  cases it with
  | other => rfl
  | tobj str =>
    show (NewWriter.updateTail sm _).1.nkeys = s.nkeys + 1
    have h1 : (NewWriter.placePayload sm s.startInsert k str).1.nkeys = s.nkeys := rfl
    have h2 := keyRelocStep_nkeys sm (NewWriter.placePayload sm s.startInsert k str).1
    have h3 : (NewWriter.placeStringKey sm
        (NewWriter.keyRelocStep sm (NewWriter.placePayload sm s.startInsert k str).1).1
        (sm.mkStringKey k s.startInsert.cursor)).1.nkeys
        = (NewWriter.keyRelocStep sm (NewWriter.placePayload sm s.startInsert k str).1).1.nkeys :=
      rfl
    have h4 := streamerStep_nkeys sm (NewWriter.placeStringKey sm
        (NewWriter.keyRelocStep sm (NewWriter.placePayload sm s.startInsert k str).1).1
        (sm.mkStringKey k s.startInsert.cursor)).1
    show ((NewWriter.streamerStep sm _).1.nkeys) + 1 = s.nkeys + 1
    rw [h4, h3, h2, h1]

theorem keyRelocStep_countP (sm : SinkModel) (s : NewWriter) :
    (NewWriter.keyRelocStep sm s).2.countP WOp.isPlaceObject = 0 := by
  unfold NewWriter.keyRelocStep
  split <;> rfl

theorem streamerStep_countP (sm : SinkModel) (s : NewWriter) :
    (NewWriter.streamerStep sm s).2.countP WOp.isPlaceObject = 0 := by
  unfold NewWriter.streamerStep
  split
  · rfl
  · split <;> rfl

theorem setitem_countP (sm : SinkModel) (s : NewWriter) (k : String) (it : WItem) :
    (NewWriter.setitem sm s k it).2.countP WOp.isPlaceObject
      = (if it.isTObjString then 1 else 0) := by
  cases it with
  | other => rfl
  | tobj str =>
    show (([WOp.placeJunkKey _, WOp.placeObject _] ++ _ ++ [WOp.placeStringKey _] ++ _ ++ _
        : List WOp).countP WOp.isPlaceObject) = 1
    simp only [List.countP_append]
    rw [keyRelocStep_countP, streamerStep_countP]
    rfl

theorem run_foldl_spec (sm : SinkModel) :
    ∀ (items : List (String × WItem)) (s : NewWriter) (tr : List WOp),
      (items.foldl
        (fun acc it =>
          let r := NewWriter.setitem sm acc.1 it.1 it.2
          (r.1, acc.2 ++ r.2)) (s, tr)).1.nkeys = s.nkeys + items.length ∧
      (items.foldl
        (fun acc it =>
          let r := NewWriter.setitem sm acc.1 it.1 it.2
          (r.1, acc.2 ++ r.2)) (s, tr)).2.countP WOp.isPlaceObject
        = tr.countP WOp.isPlaceObject + items.countP (fun it => it.2.isTObjString) := by
  intro items
  induction items with
  | nil => intro s tr; simp
  | cons it rest ih =>
    intro s tr
    simp only [List.foldl_cons]
    have h := ih (NewWriter.setitem sm s it.1 it.2).1 (tr ++ (NewWriter.setitem sm s it.1 it.2).2)
    constructor
    · rw [h.1, setitem_nkeys]
      simp only [List.length_cons]
      push_cast
      ring
    · rw [h.2]
      simp only [List.countP_append, List.countP_cons, setitem_countP]
      cases hit : it.2.isTObjString
      · simp [hit]
      · simp [hit]
        omega

/-- C9: `__setitem__` with a value that is not a `TObjString` silently skips
the object, key and streamer writes, but still increments `nkeys`, patches
the int32 counter, the directory, the head key and the header, and flushes.
Consequently, over a whole run, `nkeys` counts every insert call while the
number of object payloads written counts only the `TObjString` ones, so any
mixed run records more keys than objects. -/
theorem C9_non_tobjstring_still_counted (sm : SinkModel) (fn k : String) (s : NewWriter)
    (items : List (String × WItem)) :
    (NewWriter.setitem sm s k WItem.other).1.nkeys = s.nkeys + 1 ∧
    (NewWriter.setitem sm s k WItem.other).2 =
      [WOp.patchNkeys s.head_key_end (s.nkeys + 1),
       WOp.patchDirectory s.directory_pointcheck,
       WOp.patchHeadKey s.head_key_pointcheck,
       WOp.patchHeader, WOp.flushFile] ∧
    (NewWriter.run sm fn items).1.nkeys = (items.length : Int) ∧
    (NewWriter.run sm fn items).2.countP WOp.isPlaceObject
      = items.countP (fun it => it.2.isTObjString) ∧
    ((∃ it ∈ items, it.2 = WItem.other) →
      ((NewWriter.run sm fn items).2.countP WOp.isPlaceObject : Int)
        < (NewWriter.run sm fn items).1.nkeys) := by
  have hrun := run_foldl_spec sm items (NewWriter.init sm fn) []
  have hnk : (NewWriter.run sm fn items).1.nkeys = (items.length : Int) := by
    show (items.foldl _ (NewWriter.init sm fn, ([] : List WOp))).1.nkeys = (items.length : Int)
    rw [hrun.1]
    have : (NewWriter.init sm fn).nkeys = 0 := rfl
    rw [this]
    ring
  have hcount : (NewWriter.run sm fn items).2.countP WOp.isPlaceObject
      = items.countP (fun it => it.2.isTObjString) := by
    show (items.foldl _ (NewWriter.init sm fn, ([] : List WOp))).2.countP WOp.isPlaceObject = _
    rw [hrun.2]
    simp
  refine ⟨rfl, rfl, hnk, hcount, ?_⟩
  rintro ⟨it, hmem, hother⟩
  rw [hnk, hcount]
  have hle : items.countP (fun it => it.2.isTObjString) ≤ items.length :=
    List.countP_le_length _
  have hne : items.countP (fun it => it.2.isTObjString) ≠ items.length := by
    intro heq
    have := List.countP_eq_length.1 heq it hmem
    rw [hother] at this
    simp [WItem.isTObjString] at this
  have : items.countP (fun it => it.2.isTObjString) < items.length := lt_of_le_of_ne hle hne
  exact_mod_cast this

/-- Witness for C9: a run with one string insert and one non-string insert
records `nkeys = 2` but only one object payload. -/
theorem C9_non_tobjstring_still_counted_witness :
    (∃ it ∈ [("a", WItem.tobj "x"), ("b", WItem.other)], it.2 = WItem.other) ∧
    ((NewWriter.run smTest "f.root" [("a", WItem.tobj "x"), ("b", WItem.other)]).2.countP
        WOp.isPlaceObject : Int)
      < (NewWriter.run smTest "f.root" [("a", WItem.tobj "x"), ("b", WItem.other)]).1.nkeys :=
  ⟨⟨("b", WItem.other), by decide, rfl⟩,
    (C9_non_tobjstring_still_counted smTest "f.root" "k"
      (NewWriter.init smTest "f.root") [("a", WItem.tobj "x"), ("b", WItem.other)]).2.2.2.2
      ⟨("b", WItem.other), by decide, rfl⟩⟩

/-! ### Core B: data model of `src/uproot/partition.py` -/

/-- One basket of a branch, as exposed by the external tree reader:
`basketstart(i)`, `basketentries(i)`, `basketbytes(i)`. -/
structure Basket where
  start : Int
  entries : Int
  bytes : Int
deriving DecidableEq, Repr

/-- A branch inside one file, as exposed by the external tree reader. -/
structure BranchFile where
  baskets : List Basket
  itemdims : List Int
deriving DecidableEq, Repr

/-- Modelled from the spec: the opaque tree reader of §6 gives, per file,
`numentries` and a per-branch-name view; `branchOf` is `tree(i)[name]`. -/
structure TFile where
  path : String
  numentries : Int
  branchOf : String → BranchFile

def BranchFile.numbaskets (b : BranchFile) : Nat := b.baskets.length

/-- `branch.basketstart(i)`; total with a zero default, only consulted at
indices the source guards to be in range. -/
def BranchFile.basketstart (b : BranchFile) (i : Nat) : Int :=
  ((b.baskets.get? i).map Basket.start).getD 0

/-- The `BasketData` record of `partition.py`, including the `_pathi`
annotation that `fill` attaches to it. -/
structure BasketData where
  path : String
  branchname : String
  dtype : String
  itemdims : List Int
  entrystart : Int
  entryend : Int
  numbytes : Int
  pathi : Nat
deriving DecidableEq, Repr

/-- The `Range` record, including the `_pathi` annotation that `fill`
attaches to it (absent from JSON; `fromJson` leaves it zero). -/
structure PRange where
  path : String
  entrystart : Int
  entryend : Int
  pathi : Nat
deriving DecidableEq, Repr

def PRange.numentries (r : PRange) : Int := r.entryend - r.entrystart

/-- The `Partition` record. -/
structure Partition where
  index : Nat
  ranges : List PRange
deriving DecidableEq, Repr

def Partition.numentries (p : Partition) : Int :=
  (p.ranges.map PRange.numentries).sum

/-- The `PartitionSet` record; dtypes are carried as the strings the JSON
form uses. -/
structure PartitionSet where
  treepath : String
  branchdtypes : List (String × String)
  branchcounters : List (String × String)
  numpartitions : Nat
  numentries : Int
  partitions : List Partition
deriving DecidableEq, Repr

/-- The Python exceptions the planner can raise.  The `ValueError`s raised
with formatted messages are modelled by constructors carrying the data the
message interpolates. -/
inductive PyErr where
  | valueError (msg : String)
  | assertionError
  | indexError
  | missingBranch (key : String)
  | dtypeMismatch (key : String)
  | unsatisfiable (branchname : String) (entryi : Int) (path : String)
deriving DecidableEq, Repr

/-- A positional argument of the `PartitionSet` constructor.  The honest
call sites (`fill`, line 347) star the partitions list, passing one
`Partition` per argument; `fromJson` (line 167) forgets the star and passes
the whole list as a single argument. -/
inductive PyPartArg where
  | part (p : Partition)
  | plist (ps : List Partition)
deriving DecidableEq, Repr

/-- The `.index` attribute used by the constructor's assertion: a
`Partition` yields its index; a Python list's `.index` is a bound method,
which is never equal to an integer, modelled as `none`. -/
def PyPartArg.indexAttr : PyPartArg → Option Nat
  | PyPartArg.part p => some p.index
  | PyPartArg.plist _ => none

/-- The tiling assertions of `PartitionSet.__init__` (lines 132–140):
walking all ranges in order, a range beginning a new path must start at 0
and a range continuing the previous range's path must start at its end. -/
def tilingAssertsAux : Option String → Int → List PRange → Bool
  | _, _, [] => true
  | lastpath, last, r :: rs =>
    (if lastpath ≠ some r.path then r.entrystart == 0 else r.entrystart == last) &&
      tilingAssertsAux (some r.path) r.entryend rs

def tilingAsserts (parts : List Partition) : Bool :=
  tilingAssertsAux none 0 (parts.map Partition.ranges).flatten

/-- `PartitionSet.__init__` (lines 125–147) with its assertions, over the
positional-argument list actually passed by each call site. -/
def mkPartitionSet (treepath : String) (branchdtypes branchcounters : List (String × String))
    (numpartitions : Nat) (numentries : Int) (args : List PyPartArg) :
    Except PyErr PartitionSet :=
  if numpartitions ≠ args.length then Except.error PyErr.assertionError
  else if args.map PyPartArg.indexAttr ≠ (List.range numpartitions).map some then
    Except.error PyErr.assertionError
  else
    let parts := args.filterMap (fun a => match a with
      | PyPartArg.part p => some p
      | PyPartArg.plist _ => none)
    if numentries ≠ (parts.map Partition.numentries).sum then Except.error PyErr.assertionError
    else if ¬ tilingAsserts parts then Except.error PyErr.assertionError
    else Except.ok ⟨treepath, branchdtypes, branchcounters, numpartitions, numentries, parts⟩

/-- Inputs of `PartitionSet.fill` after the externally-handled steps: the
glob-expanded sorted path list materialized as per-file tree data, the tree
path, the normalized first-file selection `toget` (branch name → dtype
string, from `_normalizeselection`), and the counter map. -/
structure FillIn where
  files : List TFile
  treepath : String
  toget : List (String × String)
  counters : List (String × String)

/-- `paths[i]`. -/
def filePathAt (files : List TFile) (i : Nat) : Option String :=
  (files.get? i).map TFile.path

/-- The start-index scan of lines 285–287: the first `basketi` such that
`basketi + 1 == branch.numbaskets` or `branch.basketstart(basketi+1) >
entryi`.  (For a branch with at least one basket this is what the Python
`for`/`break` loop leaves in `basketi`.) -/
def startBasketAux (b : BranchFile) (entryi : Int) (i : Nat) : Nat :=
  if b.numbaskets ≤ i + 1 then i
  else if b.basketstart (i + 1) > entryi then i
  else startBasketAux b entryi (i + 1)
termination_by b.numbaskets - i
decreasing_by omega

def BranchFile.startBasket (b : BranchFile) (entryi : Int) : Nat :=
  startBasketAux b entryi 0

/-- The per-branch accumulation loop of lines 291–316, kept faithful to the
source's control flow: on basket exhaustion advance `pathi` and reset
`basketi` (the source's `basket = tree(pathi)[branchname]` binds a variable
that is never read again, so the loop keeps walking `branch`, the branch of
the file accumulation started in); stop when the path index runs off the
end; otherwise append one `BasketData`, run the nonempty assertions, and
either pop-and-stop when `under` fails or continue.  Returns the collected
baskets together with the final `pathi` (the loop variable the error path
reads). -/
def accumulate (files : List TFile) (branchname dtype : String) (branch : BranchFile)
    (under : List BasketData → Bool) (pathi basketi : Nat) (acc : List BasketData) :
    Except PyErr (List BasketData × Nat) :=
  if _hadv : branch.numbaskets ≤ basketi then
    -- basket exhaustion: advance to the next path, reset the basket index
    if hlen : files.length ≤ pathi + 1 then Except.ok (acc, pathi + 1)
    else
      -- the source's `basket = tree(pathi)[branchname]` binds a variable
      -- that is never read again, so the appends keep walking `branch`
      match branch.baskets.get? 0, filePathAt files (pathi + 1) with
      | some bk, some p =>
        let acc2 := acc ++ [⟨p, branchname, dtype, branch.itemdims,
          bk.start, bk.start + bk.entries, bk.bytes, pathi + 1⟩]
        if acc2.any (fun d => d.entrystart == d.entryend) then Except.error PyErr.assertionError
        else if ¬ under acc2 then Except.ok (acc2.dropLast, pathi + 1)
        else accumulate files branchname dtype branch under (pathi + 1) 1 acc2
      | _, _ => Except.error PyErr.indexError
  else
    match hbk : branch.baskets.get? basketi, filePathAt files pathi with
    | some bk, some p =>
      let acc2 := acc ++ [⟨p, branchname, dtype, branch.itemdims,
        bk.start, bk.start + bk.entries, bk.bytes, pathi⟩]
      if acc2.any (fun d => d.entrystart == d.entryend) then Except.error PyErr.assertionError
      else if ¬ under acc2 then Except.ok (acc2.dropLast, pathi)
      else accumulate files branchname dtype branch under pathi (basketi + 1) acc2
    | _, _ => Except.error PyErr.indexError
termination_by (files.length + 1 - pathi, branch.numbaskets + 1 - basketi)
decreasing_by
  · exact Prod.Lex.left _ _ (by omega)
  · have hnb : branch.numbaskets = branch.baskets.length := rfl
    exact Prod.Lex.right _ (by omega)

/-- Lines 275–287: where a branch's accumulation starts, given the
partitions built so far: path index, entry number, basket index and the
branch object of that file. -/
def branchStart (F : FillIn) (branchname : String) (partitions : List Partition) :
    Except PyErr (Nat × Int × Nat × BranchFile) :=
  match partitions.getLast? with
  | none =>
    match F.files.get? 0 with
    | none => Except.error PyErr.indexError
    | some f => Except.ok (0, 0, 0, f.branchOf branchname)
  | some lastPart =>
    match lastPart.ranges.getLast? with
    | none => Except.error PyErr.indexError
    | some r =>
      match F.files.get? r.pathi with
      | none => Except.error PyErr.indexError
      | some f =>
        let branch := f.branchOf branchname
        Except.ok (r.pathi, r.entryend, branch.startBasket r.entryend, branch)

/-- Lines 322–328: coalesce accumulated baskets into ranges, merging a
basket into the last range when it belongs to the same path index. -/
def toRangesAux (rs : List PRange) : List BasketData → List PRange
  | [] => rs
  | d :: ds =>
    match rs.getLast? with
    | some r =>
      if r.pathi = d.pathi then
        toRangesAux (rs.dropLast ++ [{ r with entryend := d.entryend }]) ds
      else
        toRangesAux (rs ++ [⟨d.path, d.entrystart, d.entryend, d.pathi⟩]) ds
    | none => toRangesAux [⟨d.path, d.entrystart, d.entryend, d.pathi⟩] ds

def toRanges (basketdata : List BasketData) : List PRange :=
  toRangesAux [] basketdata

/-- Lines 330–334: align the first range's `entrystart` with the previous
partition's tail (same path index) or with 0 (new path index). -/
def alignFirst (partitions : List Partition) (ranges : List PRange) :
    Except PyErr (List PRange) :=
  match partitions.getLast? with
  | none => Except.ok ranges
  | some lastPart =>
    match lastPart.ranges.getLast?, ranges with
    | _, [] => Except.error PyErr.indexError
    | none, _ => Except.error PyErr.indexError
    | some prev, r :: rs =>
      if prev.pathi = r.pathi then Except.ok ({ r with entrystart := prev.entryend } :: rs)
      else Except.ok ({ r with entrystart := 0 } :: rs)

/-- One branch's candidate partition (the body of the `for branchname,
dtype` loop, lines 274–336), including the raise of lines 318–319 when the
accumulation came back empty. -/
def branchCandidate (F : FillIn) (under : List BasketData → Bool)
    (partitions : List Partition) (partitioni : Nat) (branchname dtype : String) :
    Except PyErr Partition := do
  let st ← branchStart F branchname partitions
  let r ← accumulate F.files branchname dtype st.2.2.2 under st.1 st.2.2.1 []
  if r.1.isEmpty then
    match filePathAt F.files r.2 with
    | some p => Except.error (PyErr.unsatisfiable branchname st.2.1 p)
    | none => Except.error PyErr.indexError
  else
    let ranges := toRanges r.1
    let aligned ← alignFirst partitions ranges
    Except.ok ⟨partitioni, aligned.filter (fun r => r.entrystart != r.entryend)⟩

/-- The candidates of all selected branches, in `toget` order. -/
def allCandidates (F : FillIn) (under : List BasketData → Bool)
    (partitions : List Partition) (partitioni : Nat) :
    List (String × String) → Except PyErr (List Partition)
  | [] => Except.ok []
  | (bn, dt) :: rest => do
    let c ← branchCandidate F under partitions partitioni bn dt
    let tail ← allCandidates F under partitions partitioni rest
    Except.ok (c :: tail)

/-- One iteration of the `while` loop of lines 272–345: build every branch's
candidate and let `by` choose.  (The tree-cache eviction of lines 342–343
has no observable effect in the model.) -/
def growOne (F : FillIn) (under : List BasketData → Bool)
    (byF : List Partition → Partition) (partitions : List Partition) (partitioni : Nat) :
    Except PyErr Partition := do
  let cands ← allCandidates F under partitions partitioni F.toget
  Except.ok (byF cands)

/-- The `while` condition of line 272, negated: the loop is done when the
last partition's last range lies in the last path and reaches the last
file's `numentries`. -/
def loopDone (F : FillIn) (partitions : List Partition) : Except PyErr Bool :=
  match partitions.getLast? with
  | none => Except.ok false
  | some p =>
    match p.ranges.getLast? with
    | none => Except.error PyErr.indexError
    | some r =>
      match F.files.getLast? with
      | none => Except.error PyErr.indexError
      | some lastF =>
        if r.path ≠ lastF.path then Except.ok false
        else Except.ok (¬ r.entryend < lastF.numentries)

/-- The fuelled `while` loop of `fill`. -/
def fillLoop (F : FillIn) (under : List BasketData → Bool)
    (byF : List Partition → Partition) :
    Nat → List Partition → Nat → Option (Except PyErr (List Partition))
  | 0, _, _ => none
  | fuel + 1, partitions, partitioni =>
    match loopDone F partitions with
    | Except.error e => some (Except.error e)
    | Except.ok true => some (Except.ok partitions)
    | Except.ok false =>
      match growOne F under byF partitions partitioni with
      | Except.error e => some (Except.error e)
      | Except.ok p => fillLoop F under byF fuel (partitions ++ [p]) (partitioni + 1)

/-- `PartitionSet.fill` (line 347 included): run the loop, then call the
checked constructor with the starred partitions list.  `none` means the
fuel ran out before the loop did. -/
def fill (F : FillIn) (under : List BasketData → Bool)
    (byF : List Partition → Partition) (fuel : Nat) : Option (Except PyErr PartitionSet) :=
  (fillLoop F under byF fuel [] 0).map (fun r =>
    r.bind (fun parts =>
      mkPartitionSet F.treepath F.toget F.counters parts.length
        ((parts.map Partition.numentries).sum) (parts.map PyPartArg.part)))

/-- The default `by`: `min(choices, key=lambda x: x.numentries)`, first
minimum on ties; total with a dummy value on the empty list Python's `min`
would reject. -/
def byMin (cands : List Partition) : Partition :=
  match cands with
  | [] => ⟨0, []⟩
  | c :: cs => cs.foldl (fun best x => if x.numentries < best.numentries then x else best) c

/-- One-basket branch of the first evaluation file. -/
def branchA : BranchFile := ⟨[⟨0, 100, 10⟩], []⟩

/-- One-basket branch of the second evaluation file. -/
def branchB : BranchFile := ⟨[⟨0, 50, 5⟩], []⟩

/-- Two schema-consistent files with different basket geometry: 100 entries
in one basket versus 50 entries in one basket. -/
def twoFiles : FillIn :=
  ⟨[⟨"a.root", 100, fun _ => branchA⟩, ⟨"b.root", 50, fun _ => branchB⟩],
   "events", [("b", "i4")], []⟩

/-- An `under` constraint that never stops growth. -/
def underTrue : List BasketData → Bool := fun _ => true

/-- C3: evaluating the accumulation loop where file A's single basket is
exhausted and accumulation crosses into file B.  The second `BasketData` is
labelled with file B's path but carries file A's branch geometry
(`entryend = 100`, `numbytes = 10`), because line 298 binds `basket` instead
of `branch`; the claim instead requires file B's metadata, which would give
`entryend = 0 + 50` and `numbytes = 5`. -/
theorem C3_crossfile_metadata_from_old_branch :
    accumulate twoFiles.files "b" "i4" branchA underTrue 0 0 [] =
      Except.ok ([⟨"a.root", "b", "i4", [], 0, 100, 10, 0⟩,
                  ⟨"b.root", "b", "i4", [], 0, 100, 10, 1⟩], 2) ∧
    ((twoFiles.files.get? 0).map (fun f => f.branchOf "b")) = some branchA ∧
    ((twoFiles.files.get? 1).map (fun f => f.branchOf "b")) = some branchB ∧
    branchB.baskets = [⟨0, 50, 5⟩] ∧
    (⟨"b.root", "b", "i4", [], 0, 0 + 50, 5, 1⟩ : BasketData) ≠
      ⟨"b.root", "b", "i4", [], 0, 100, 10, 1⟩ := by
  refine ⟨?_, by decide, by decide, by decide, by decide⟩
  simp [accumulate, filePathAt, underTrue, BranchFile.numbaskets, branchA, twoFiles]

/-- Ranges of the partition set touching `path`, in order: the claim's
grouping by path of the concatenation of all partitions' ranges. -/
def pathRangesOf (ps : PartitionSet) (path : String) : List PRange :=
  ((ps.partitions.map Partition.ranges).flatten).filter (fun r => r.path == path)

/-- Each range starts where the previous one ends. -/
def rangesContiguous : List PRange → Bool
  | [] => true
  | [_] => true
  | a :: b :: rs => (b.entrystart == a.entryend) && rangesContiguous (b :: rs)

/-- The tiling property stated by the claim, written from the claim's words:
for each file, the grouped ranges start at 0, are contiguous, and the last
one ends at that file's `numentries` (no ranges is fine only for an empty
file). -/
def tilesFiles (ps : PartitionSet) (files : List TFile) : Bool :=
  files.all (fun f =>
    match pathRangesOf ps f.path with
    | [] => f.numentries == 0
    | r :: rs =>
      (r.entrystart == 0) && rangesContiguous (r :: rs) &&
        (((r :: rs).getLastD r).entryend == f.numentries))

/-- C2: a `PartitionSet` returned by `fill` that does not tile its input
files.  On `twoFiles` (file A: one 100-entry basket; file B: one 50-entry
basket) with an always-true `under`, `fill` succeeds and returns a single
partition whose second range is `("b.root", 0, 100)` — but file B has only
50 entries, so the grouped ranges of path `b.root` do not tile
`[0, numentries)`. -/
theorem C2_fill_output_breaks_tiling :
    fill twoFiles underTrue byMin 10 =
      some (Except.ok ⟨"events", [("b", "i4")], [], 1, 200,
        [⟨0, [⟨"a.root", 0, 100, 0⟩, ⟨"b.root", 0, 100, 1⟩]⟩]⟩) ∧
    tilesFiles
      ⟨"events", [("b", "i4")], [], 1, 200,
        [⟨0, [⟨"a.root", 0, 100, 0⟩, ⟨"b.root", 0, 100, 1⟩]⟩]⟩ twoFiles.files = false ∧
    (twoFiles.files.get? 1).map TFile.numentries = some 50 := by
  refine ⟨?_, by decide, by decide⟩
  simp [fill, fillLoop, loopDone, growOne, allCandidates, branchCandidate, branchStart,
    accumulate, filePathAt, underTrue, BranchFile.numbaskets, BranchFile.startBasket,
    startBasketAux, branchA, branchB, twoFiles, toRanges, toRangesAux, alignFirst, byMin,
    mkPartitionSet, tilingAsserts, tilingAssertsAux, Partition.numentries, PRange.numentries,
    PyPartArg.indexAttr, List.range, List.range.loop, bind, Except.bind]

/-! ### PartitionSet (de)serialization (lines 79–174) -/

/-- JSON form of a `Range` (no `_pathi`: `toJson` does not emit it). -/
structure RangeJson where
  path : String
  entrystart : Int
  entryend : Int
deriving DecidableEq, Repr

/-- JSON form of a `Partition`. -/
structure PartJson where
  index : Nat
  ranges : List RangeJson
deriving DecidableEq, Repr

/-- JSON form of a `PartitionSet`; `branchdtypes` keeps the dict's
insertion-ordered `(name, str(dtype))` pairs. -/
structure PSJson where
  treepath : String
  branchdtypes : List (String × String)
  branchcounters : List (String × String)
  numpartitions : Nat
  numentries : Int
  partitions : List PartJson
deriving DecidableEq, Repr

def PRange.toJson (r : PRange) : RangeJson := ⟨r.path, r.entrystart, r.entryend⟩

/-- `Range.fromJson`; the reconstructed range has no `_pathi` annotation,
modelled as 0. -/
def rangeFromJson (j : RangeJson) : PRange := ⟨j.path, j.entrystart, j.entryend, 0⟩

def Partition.toJson (p : Partition) : PartJson := ⟨p.index, p.ranges.map PRange.toJson⟩

def partitionFromJson (j : PartJson) : Partition := ⟨j.index, j.ranges.map rangeFromJson⟩

/-- `PartitionSet.toJson` (lines 152–158); `str(dtype)` is the identity on
the dtype strings the model carries. -/
def PartitionSet.toJson (ps : PartitionSet) : PSJson :=
  ⟨ps.treepath, ps.branchdtypes, ps.branchcounters, ps.numpartitions, ps.numentries,
   ps.partitions.map Partition.toJson⟩

/-- Python tuple unpacking of a string into two targets (`for b, d in …`
where the iterated element is a string): succeeds only on a two-character
string, yielding its characters. -/
def unpack2 (s : String) : Except PyErr (String × String) :=
  match s.data with
  | [a, b] => Except.ok (String.mk [a], String.mk [b])
  | _ => Except.error (PyErr.valueError "unpack")

/-- Modelled from the spec: `numpy.dtype` rehydrates a dtype string; the
model keeps the string itself.  (This is generous to the code: real
`numpy.dtype` also rejects many one-character strings.) -/
def npDtype (s : String) : String := s

/-- The dict comprehension of line 163,
`dict((b, numpy.dtype(d)) for b, d in obj["branchdtypes"])`: iterating a
Python dict yields its KEYS, so each key string is tuple-unpacked into
`(b, d)`. -/
def fromJsonBranchdtypes : List (String × String) → Except PyErr (List (String × String))
  | [] => Except.ok []
  | (k, _) :: rest => do
    let bd ← unpack2 k
    let tail ← fromJsonBranchdtypes rest
    Except.ok ((bd.1, npDtype bd.2) :: tail)

/-- `PartitionSet.fromJson` (lines 160–167).  The partitions list is passed
WITHOUT a star, so the constructor's varargs tuple holds a single element:
the whole list. -/
def PartitionSet.fromJson (j : PSJson) : Except PyErr PartitionSet := do
  let bdt ← fromJsonBranchdtypes j.branchdtypes
  mkPartitionSet j.treepath bdt j.branchcounters j.numpartitions j.numentries
    [PyPartArg.plist (j.partitions.map partitionFromJson)]

/-- The well-formed one-partition set used to evaluate the round trip. -/
def psDemo : PartitionSet :=
  ⟨"events", [("x", "i4")], [], 1, 100, [⟨0, [⟨"a.root", 0, 100, 0⟩]⟩]⟩

/-- C4: the JSON round trip never succeeds.  `psDemo` is well-formed (the
checked constructor accepts exactly its data through the starred call used
by `fill`), yet `fromJson (toJson psDemo)` raises: the dict comprehension
iterates the keys of `branchdtypes` and tuple-unpacks the branch name
`"x"`.  Moreover `fromJson` fails on every input: even when every branch
name has exactly two characters, the constructor receives the partitions
list as one argument, so its first two assertions cannot both pass. -/
theorem C4_fromJson_roundtrip_always_fails :
    mkPartitionSet "events" [("x", "i4")] [] 1 100
      [PyPartArg.part ⟨0, [⟨"a.root", 0, 100, 0⟩]⟩] = Except.ok psDemo ∧
    PartitionSet.fromJson (PartitionSet.toJson psDemo) =
      Except.error (PyErr.valueError "unpack") ∧
    (∀ j : PSJson, ∃ e, PartitionSet.fromJson j = Except.error e) := by
  refine ⟨by rfl, by rfl, ?_⟩
  intro j
  unfold PartitionSet.fromJson
  cases hb : fromJsonBranchdtypes j.branchdtypes with
  | error e => exact ⟨e, by simp [hb, Bind.bind, Except.bind]⟩
  | ok bdt =>
    simp only [hb, Bind.bind, Except.bind]
    unfold mkPartitionSet
    by_cases hn : j.numpartitions ≠ 1
    · refine ⟨PyErr.assertionError, ?_⟩
      rw [if_pos]
      simpa using hn
    · refine ⟨PyErr.assertionError, ?_⟩
      push_neg at hn
      simp only [hn]
      have hc : ([PyPartArg.plist (j.partitions.map partitionFromJson)].map PyPartArg.indexAttr)
          ≠ (List.range 1).map some := by
        simp [PyPartArg.indexAttr, List.range_succ]
      rw [if_neg (by simp), if_pos hc]

/-! ### Schema validation of `tree(i)` (lines 250–257) -/

/-- Python dict lookup on the insertion-ordered association list. -/
def lookupD (l : List (String × String)) (k : String) : Option String :=
  (l.find? (fun p => p.1 == k)).map Prod.snd

/-- `del d[key]` on the association list (keys are unique in a dict). -/
def delKey (l : List (String × String)) (k : String) : List (String × String) :=
  l.filter (fun p => p.1 != k)

/-- `set(toget.keys()).union(set(newtoget.keys()))`, materialized in a
canonical order (first-file keys first, then the later file's extra keys). -/
def unionKeys (a b : List (String × String)) : List String :=
  a.map Prod.fst ++ (b.map Prod.fst).filter (fun k => decide (k ∉ a.map Prod.fst))

/-- The validation loop body of lines 251–257: a key missing from the new
file raises; a key missing from the first file's selection is deleted from
the new selection; a dtype mismatch raises. -/
def checkNewTogetAux (toget : List (String × String)) :
    List String → List (String × String) → Except PyErr (List (String × String))
  | [], newtoget => Except.ok newtoget
  | k :: ks, newtoget =>
    match lookupD newtoget k with
    | none => Except.error (PyErr.missingBranch k)
    | some dnew =>
      match lookupD toget k with
      | none => checkNewTogetAux toget ks (delKey newtoget k)
      | some dold =>
        if dnew ≠ dold then Except.error (PyErr.dtypeMismatch k)
        else checkNewTogetAux toget ks newtoget

/-- The schema validation `tree(i)` performs on every file after the first
(lines 250–257): `toget` is the first file's normalized selection,
`newtoget` the later file's. -/
def checkNewToget (toget newtoget : List (String × String)) :
    Except PyErr (List (String × String)) :=
  checkNewTogetAux toget (unionKeys toget newtoget) newtoget

theorem lookupD_cons (k1 d : String) (l : List (String × String)) (k : String) :
    lookupD ((k1, d) :: l) k = if k1 == k then some d else lookupD l k := by
  by_cases h : k1 == k <;> simp [lookupD, List.find?_cons, h]

theorem mem_keys_iff_lookupD (l : List (String × String)) (k : String) :
    k ∈ l.map Prod.fst ↔ lookupD l k ≠ none := by
  induction l with
  | nil => simp [lookupD]
  | cons p l ih =>
    rw [show p = (p.1, p.2) from rfl, lookupD_cons]
    by_cases h : p.1 = k
    · simp [h]
    · have hb : (p.1 == k) = false := by simpa using h
      simp only [List.map_cons, List.mem_cons, hb, Bool.false_eq_true, if_false, ih]
      constructor
      · rintro (he | hm)
        · exact absurd he.symm h
        · exact hm
      · exact fun hc => Or.inr hc

theorem lookupD_eq_of_mem {l : List (String × String)} {k d : String}
    (hnd : (l.map Prod.fst).Nodup) (hm : (k, d) ∈ l) : lookupD l k = some d := by
  induction l with
  | nil => simp at hm
  | cons p l ih =>
    rw [show p = (p.1, p.2) from rfl, lookupD_cons]
    rcases List.mem_cons.1 hm with heq | htail
    · have h1 : p.1 = k := by rw [← heq]
      have h2 : p.2 = d := by rw [← heq]
      simp [h1, h2]
    · have hk : k ∈ l.map Prod.fst := List.mem_map.2 ⟨(k, d), htail, rfl⟩
      have hne : p.1 ≠ k := by
        intro he
        exact (List.nodup_cons.1 hnd).1 (he ▸ hk)
      have hb : (p.1 == k) = false := by simpa using hne
      simp only [hb, if_false]
      exact ih (List.nodup_cons.1 hnd).2 htail

theorem lookupD_delKey_ne (m : List (String × String)) (k k2 : String) (hne : k2 ≠ k) :
    lookupD (delKey m k) k2 = lookupD m k2 := by
  induction m with
  | nil => rfl
  | cons p l ih =>
    show lookupD (List.filter _ (p :: l)) k2 = _
    rw [List.filter_cons]
    by_cases hp : p.1 = k
    · have hb : (p.1 != k) = false := by simpa using hp
      have hb2 : (p.1 == k2) = false := by
        simp only [beq_eq_false_iff_ne]
        rw [hp]
        exact fun he => hne he.symm
      rw [show p = (p.1, p.2) from rfl]
      simp only [hb, Bool.false_eq_true, if_false, lookupD_cons, hb2, if_false]
      exact ih
    · have hb : (p.1 != k) = true := by simpa using hp
      rw [show p = (p.1, p.2) from rfl]
      simp only [hb, if_true]
      show lookupD ((p.1, p.2) :: delKey l k) k2 = _
      rw [lookupD_cons, lookupD_cons]
      by_cases hk2 : p.1 == k2
      · simp [hk2]
      · simp only [hk2, Bool.false_eq_true, if_false]
        exact ih

theorem checkAux_pass (toget : List (String × String)) :
    ∀ (ks rest : List String) (m : List (String × String)),
      (∀ k ∈ ks, lookupD toget k ≠ none) →
      (∀ k ∈ ks, lookupD m k = lookupD toget k) →
      checkNewTogetAux toget (ks ++ rest) m = checkNewTogetAux toget rest m := by
  intro ks
  induction ks with
  | nil => intro rest m _ _; rfl
  | cons k ks ih =>
    intro rest m h1 h2
    have hk1 := h1 k (List.mem_cons_self k ks)
    have hk2 := h2 k (List.mem_cons_self k ks)
    cases hl : lookupD toget k with
    | none => exact absurd hl hk1
    | some dold =>
      have hm : lookupD m k = some dold := by rw [hk2, hl]
      show checkNewTogetAux toget (k :: (ks ++ rest)) m = _
      simp only [checkNewTogetAux, hm, hl, ne_eq, not_true_eq_false, if_false, if_neg,
        not_not]
      exact ih rest m (fun x hx => h1 x (List.mem_cons_of_mem k hx))
        (fun x hx => h2 x (List.mem_cons_of_mem k hx))

theorem checkAux_err (toget : List (String × String)) :
    ∀ (ks rest : List String) (m : List (String × String)),
      (∀ k ∈ ks, lookupD toget k ≠ none) →
      (∃ k ∈ ks, lookupD m k ≠ lookupD toget k) →
      ∃ e k, k ∈ ks ∧ lookupD m k ≠ lookupD toget k ∧
        (e = PyErr.missingBranch k ∨ e = PyErr.dtypeMismatch k) ∧
        checkNewTogetAux toget (ks ++ rest) m = Except.error e := by
  intro ks
  induction ks with
  | nil => intro rest m _ hbad; simp at hbad
  | cons k ks ih =>
    intro rest m h1 hbad
    cases hl : lookupD toget k with
    | none => exact absurd hl (h1 k (List.mem_cons_self k ks))
    | some dold =>
      cases hm : lookupD m k with
      | none =>
        refine ⟨PyErr.missingBranch k, k, List.mem_cons_self k ks, by simp [hm, hl],
          Or.inl rfl, ?_⟩
        show checkNewTogetAux toget (k :: (ks ++ rest)) m = _
        simp [checkNewTogetAux, hm]
      | some dnew =>
        by_cases hd : dnew = dold
        · subst hd
          have hgood : lookupD m k = lookupD toget k := by rw [hm, hl]
          rcases hbad with ⟨kb, hkb, hkbad⟩
          rcases List.mem_cons.1 hkb with heq | htail
          · exact absurd (heq ▸ hgood) hkbad
          · rcases ih rest m (fun x hx => h1 x (List.mem_cons_of_mem k hx))
              ⟨kb, htail, hkbad⟩ with ⟨e, k2, hk2, hbad2, hshape, heq2⟩
            refine ⟨e, k2, List.mem_cons_of_mem k hk2, hbad2, hshape, ?_⟩
            show checkNewTogetAux toget (k :: (ks ++ rest)) m = _
            simp only [checkNewTogetAux, hm, hl, ne_eq, not_true_eq_false, if_false,
              if_neg, not_not]
            exact heq2
        · refine ⟨PyErr.dtypeMismatch k, k, List.mem_cons_self k ks, by simp [hm, hl, hd],
            Or.inr rfl, ?_⟩
          show checkNewTogetAux toget (k :: (ks ++ rest)) m = _
          simp [checkNewTogetAux, hm, hl, hd]

theorem checkAux_ok (toget : List (String × String)) :
    ∀ (ks : List String) (m : List (String × String)), ks.Nodup →
      (∀ k ∈ ks, lookupD toget k = none) →
      (∀ k ∈ ks, lookupD m k ≠ none) →
      checkNewTogetAux toget ks m =
        Except.ok (m.filter (fun p => decide (p.1 ∉ ks))) := by
  intro ks
  induction ks with
  | nil => intro m _ _ _; simp [checkNewTogetAux]
  | cons k ks ih =>
    intro m hnd h1 h2
    cases hm : lookupD m k with
    | none => exact absurd hm (h2 k (List.mem_cons_self k ks))
    | some dnew =>
      have hl := h1 k (List.mem_cons_self k ks)
      show checkNewTogetAux toget (k :: ks) m = _
      simp only [checkNewTogetAux, hm, hl]
      have hdel : ∀ x ∈ ks, lookupD (delKey m k) x ≠ none := by
        intro x hx
        have hxk : x ≠ k := by
          intro he
          exact (List.nodup_cons.1 hnd).1 (he ▸ hx)
        rw [lookupD_delKey_ne m k x hxk]
        exact h2 x (List.mem_cons_of_mem k hx)
      rw [ih (delKey m k) (List.nodup_cons.1 hnd).2
        (fun x hx => h1 x (List.mem_cons_of_mem k hx)) hdel]
      congr 1
      show (m.filter (fun p => p.1 != k)).filter (fun p => decide (p.1 ∉ ks)) = _
      rw [List.filter_filter]
      apply List.filter_congr
      intro p _
      by_cases hpk : p.1 = k
      · simp [hpk]
      · by_cases hpks : p.1 ∈ ks <;> simp [hpk, hpks]

/-- C10: in the schema validation for a later file, a branch selected there
but absent from the first file's selection is silently dropped and never
causes an error; the validation errors exactly when some first-file branch
is missing from the later file or carries a different dtype, and the error
names that branch (missing-branch or dtype-mismatch).  On success the
retained selection is the later file's selection restricted to the first
file's branch names. -/
theorem C10_extra_branches_silently_dropped (toget newtoget : List (String × String))
    (hnd1 : (toget.map Prod.fst).Nodup) (hnd2 : (newtoget.map Prod.fst).Nodup) :
    ((∃ e, checkNewToget toget newtoget = Except.error e) ↔
      ∃ p ∈ toget, lookupD newtoget p.1 ≠ some p.2) ∧
    (∀ e, checkNewToget toget newtoget = Except.error e →
      ∃ k, k ∈ toget.map Prod.fst ∧ lookupD newtoget k ≠ lookupD toget k ∧
        (e = PyErr.missingBranch k ∨ e = PyErr.dtypeMismatch k)) ∧
    (∀ r, checkNewToget toget newtoget = Except.ok r →
      r = newtoget.filter (fun p => decide (p.1 ∈ toget.map Prod.fst))) := by
  have h1 : ∀ k ∈ toget.map Prod.fst, lookupD toget k ≠ none :=
    fun k hk => (mem_keys_iff_lookupD _ _).1 hk
  have hrun : checkNewToget toget newtoget =
      checkNewTogetAux toget
        (toget.map Prod.fst ++
          (newtoget.map Prod.fst).filter (fun k => decide (k ∉ toget.map Prod.fst)))
        newtoget := rfl
  by_cases hA : ∀ p ∈ toget, lookupD newtoget p.1 = some p.2
  · -- no offending first-file branch: the run succeeds
    have hsame : ∀ k ∈ toget.map Prod.fst, lookupD newtoget k = lookupD toget k := by
      intro k hk
      rcases List.mem_map.1 hk with ⟨p, hp, rfl⟩
      rw [lookupD_eq_of_mem hnd1 (show (p.1, p.2) ∈ toget by simpa using hp)]
      exact hA p hp
    have hok : checkNewToget toget newtoget =
        Except.ok (newtoget.filter (fun p => decide (p.1 ∉
          (newtoget.map Prod.fst).filter (fun k => decide (k ∉ toget.map Prod.fst))))) := by
      rw [hrun, checkAux_pass toget _ _ newtoget h1 hsame]
      have hto : ∀ k ∈ (newtoget.map Prod.fst).filter
          (fun k => decide (k ∉ toget.map Prod.fst)), lookupD toget k = none := by
        intro k hk
        have hnot : k ∉ toget.map Prod.fst := of_decide_eq_true (List.mem_filter.1 hk).2
        have hnn : ¬ lookupD toget k ≠ none :=
          fun hne => hnot ((mem_keys_iff_lookupD _ _).2 hne)
        exact not_not.1 hnn
      have hnew : ∀ k ∈ (newtoget.map Prod.fst).filter
          (fun k => decide (k ∉ toget.map Prod.fst)), lookupD newtoget k ≠ none :=
        fun k hk => (mem_keys_iff_lookupD _ _).1 (List.mem_filter.1 hk).1
      exact checkAux_ok toget _ newtoget (List.Nodup.filter _ hnd2) hto hnew
    refine ⟨?_, ?_, ?_⟩
    · constructor
      · rintro ⟨e, he⟩
        rw [hok] at he
        exact absurd he (by simp)
      · rintro ⟨p, hp, hbad⟩
        exact absurd (hA p hp) hbad
    · intro e he
      rw [hok] at he
      exact absurd he (by simp)
    · intro r hr
      rw [hok] at hr
      have hr2 := Except.ok.inj hr
      rw [← hr2]
      apply List.filter_congr
      intro p hp
      have hpk : p.1 ∈ newtoget.map Prod.fst := List.mem_map.2 ⟨p, hp, rfl⟩
      by_cases hpt : p.1 ∈ toget.map Prod.fst
      · simp [hpt, List.mem_filter]
      · simp [hpt, List.mem_filter, hpk]
  · -- some first-file branch is missing or mismatched: the run errors
    push_neg at hA
    rcases hA with ⟨p, hp, hbad⟩
    have hkmem : p.1 ∈ toget.map Prod.fst := List.mem_map.2 ⟨p, hp, rfl⟩
    have hlk : lookupD toget p.1 = some p.2 :=
      lookupD_eq_of_mem hnd1 (show (p.1, p.2) ∈ toget by simpa using hp)
    have hbad2 : lookupD newtoget p.1 ≠ lookupD toget p.1 := by
      rw [hlk]; exact hbad
    rcases checkAux_err toget (toget.map Prod.fst) _ newtoget h1 ⟨p.1, hkmem, hbad2⟩ with
      ⟨e, k2, hk2, hkbad, hshape, heq⟩
    have herr : checkNewToget toget newtoget = Except.error e := by rw [hrun]; exact heq
    refine ⟨?_, ?_, ?_⟩
    · exact ⟨fun _ => ⟨p, hp, hbad⟩, fun _ => ⟨e, herr⟩⟩
    · intro e0 he0
      rw [herr] at he0
      have : e = e0 := Except.error.inj he0
      subst this
      exact ⟨k2, hk2, hkbad, hshape⟩
    · intro r hr
      rw [herr] at hr
      exact absurd hr (by simp)

/-- Witness for C10: first file selects only `a`; the later file also has
`c`, which is dropped without error. -/
theorem C10_extra_branches_silently_dropped_witness :
    (([("a", "i4")] : List (String × String)).map Prod.fst).Nodup ∧
    (([("a", "i4"), ("c", "f8")] : List (String × String)).map Prod.fst).Nodup ∧
    ([("a", "i4")] : List (String × String)) =
      [("a", "i4"), ("c", "f8")].filter
        (fun p => decide (p.1 ∈ ([("a", "i4")] : List (String × String)).map Prod.fst)) :=
  ⟨by decide, by decide,
    (C10_extra_branches_silently_dropped [("a", "i4")] [("a", "i4"), ("c", "f8")]
      (by decide) (by decide)).2.2 [("a", "i4")] (by rfl)⟩

/-! ### The partition iterator (lines 349–438) -/

/-- Assoc-list lookup for the `treedata` dict. -/
def lookupTD {β : Type} (td : List (String × β)) (p : String) : Option β :=
  (td.find? (fun q => q.1 == p)).map Prod.snd

/-- Python dict assignment `td[p] = v`: replace in place, else append. -/
def updateTD {β : Type} (td : List (String × β)) (p : String) (v : β) : List (String × β) :=
  if (td.find? (fun q => q.1 == p)).isSome then
    td.map (fun q => if q.1 == p then (q.1, v) else q)
  else td ++ [(p, v)]

/-- Python `del td[p]`. -/
def eraseTD {β : Type} (td : List (String × β)) (p : String) : List (String × β) :=
  td.filter (fun q => q.1 != p)

/-- The generator state of `iterator`: the `treedata` dict mapping a path to
its read `(entrystart, entryend, arrays)` triples (`arrays` is the opaque
payload type `A`), the walk variables `oldpath` and `entries`, the emission
front `nextpartition`, and the record of emissions (each with the
`treedata` it was emitted from). -/
structure IterState (A : Type) where
  treedata : List (String × List (Int × Int × A))
  oldpath : Option String
  entries : List (Int × Int)
  nextpartition : Nat
  yields : List (Nat × List (String × List (Int × Int × A)))

/-- `complete(nextpartition)` (lines 375–379): every range of the partition
is present in `treedata` under its path with exactly matching
`(entrystart, entryend)`. -/
def complete {A : Type} (pset : PartitionSet)
    (treedata : List (String × List (Int × Int × A))) (np : Nat) : Bool :=
  match pset.partitions.get? np with
  | none => true
  | some part =>
    part.ranges.all (fun fr =>
      match lookupTD treedata fr.path with
      | none => false
      | some l => l.any (fun t => t.1 == fr.entrystart && t.2.1 == fr.entryend))

/-- The `treedata` consumption of `output` (lines 383–391): for each range,
drop everything up to and including the matching triple, deleting the path
entry when drained.  (When no triple matches, Python's loop leaves `used` at
the last index; `complete` rules that out at every call site.) -/
def consumeRanges {A : Type} (treedata : List (String × List (Int × Int × A)))
    (ranges : List PRange) : List (String × List (Int × Int × A)) :=
  ranges.foldl
    (fun td fr =>
      let l := (lookupTD td fr.path).getD []
      let used := (l.findIdx? (fun t => t.1 == fr.entrystart && t.2.1 == fr.entryend)).getD
        (l.length - 1)
      let l2 := l.drop (used + 1)
      if l2.isEmpty then eraseTD td fr.path else updateTD td fr.path l2)
    treedata

/-- The emission loop (lines 423–428 and 433–438): while the next partition
in index order is complete, yield it and consume its ranges. -/
def emitLoop {A : Type} (pset : PartitionSet) (st : IterState A) : IterState A :=
  if h : st.nextpartition < pset.partitions.length ∧
      complete pset st.treedata st.nextpartition = true then
    let part := pset.partitions.get ⟨st.nextpartition, h.1⟩
    emitLoop pset
      { st with
        yields := st.yields ++ [(st.nextpartition, st.treedata)],
        treedata := consumeRanges st.treedata part.ranges,
        nextpartition := st.nextpartition + 1 }
  else st
termination_by pset.partitions.length - st.nextpartition
decreasing_by omega

/-- The per-range walk step (lines 414–421): on a path transition, flush the
previous path's pending entry list through the tree reader oracle
`readRanges` (the external `tree.iterator(entries, …, reportentries=True)`)
and reset `entries`; then record the range's entry pair. -/
def walkRange {A : Type} (readRanges : String → List (Int × Int) → List (Int × Int × A))
    (st : IterState A) (fr : PRange) : IterState A :=
  let st2 :=
    if st.oldpath ≠ some fr.path then
      match st.oldpath with
      | some op => { st with treedata := updateTD st.treedata op (readRanges op st.entries),
                             entries := [] }
      | none => { st with entries := [] }
    else st
  { st2 with entries := st2.entries ++ [(fr.entrystart, fr.entryend)],
             oldpath := some fr.path }

/-- One iteration of the outer `for partition` loop (lines 413–428). -/
def walkPartition {A : Type} (pset : PartitionSet)
    (readRanges : String → List (Int × Int) → List (Int × Int × A))
    (st : IterState A) (part : Partition) : IterState A :=
  emitLoop pset (part.ranges.foldl (walkRange readRanges) st)

/-- The whole `iterator` generator run (lines 371–438), returning the final
state with the recorded emissions. -/
def iterRun {A : Type} (pset : PartitionSet)
    (readRanges : String → List (Int × Int) → List (Int × Int × A)) : IterState A :=
  let st0 : IterState A := ⟨[], none, [], 0, []⟩
  let st := pset.partitions.foldl (walkPartition pset readRanges) st0
  let st2 :=
    match st.oldpath with
    | some op => { st with treedata := updateTD st.treedata op (readRanges op st.entries) }
    | none => st
  emitLoop pset st2

/-- Invariant tying the emission record to the emission front. -/
def IterInv {A : Type} (pset : PartitionSet) (st : IterState A) : Prop :=
  st.yields.map Prod.fst = List.range st.yields.length ∧
  st.nextpartition = st.yields.length ∧
  ∀ y ∈ st.yields, y.1 < pset.partitions.length ∧ complete pset y.2 y.1 = true

theorem emitLoop_inv {A : Type} (pset : PartitionSet) :
    ∀ (n : Nat) (st : IterState A), pset.partitions.length - st.nextpartition ≤ n →
      IterInv pset st → IterInv pset (emitLoop pset st) := by
  intro n
  induction n with
  | zero =>
    intro st hn hinv
    rw [emitLoop]
    split
    · rename_i h
      omega
    · exact hinv
  | succ n ih =>
    intro st hn hinv
    rw [emitLoop]
    split
    · rename_i h
      apply ih
      · simp only []
        omega
      · refine ⟨?_, ?_, ?_⟩
        · simp only [List.map_append, List.length_append, hinv.1, List.map_cons, List.map_nil,
            List.length_cons, List.length_nil]
          rw [hinv.2.1] at *
          rw [← hinv.1]
          simp [List.range_succ, hinv.1, hinv.2.1]
        · simp [hinv.2.1]
        · intro y hy
          rcases List.mem_append.1 hy with hold | hnew
          · exact hinv.2.2 y hold
          · simp at hnew
            rw [hnew]
            exact ⟨h.1, h.2⟩
    · exact hinv

theorem walkRange_preserves {A : Type}
    (readRanges : String → List (Int × Int) → List (Int × Int × A))
    (st : IterState A) (fr : PRange) :
    (walkRange readRanges st fr).yields = st.yields ∧
      (walkRange readRanges st fr).nextpartition = st.nextpartition := by
  unfold walkRange
  by_cases h : st.oldpath ≠ some fr.path
  · rw [if_pos h]
    cases st.oldpath <;> exact ⟨rfl, rfl⟩
  · rw [if_neg h]
    exact ⟨rfl, rfl⟩

theorem foldl_walkRange_preserves {A : Type}
    (readRanges : String → List (Int × Int) → List (Int × Int × A)) :
    ∀ (rs : List PRange) (st : IterState A),
      (rs.foldl (walkRange readRanges) st).yields = st.yields ∧
        (rs.foldl (walkRange readRanges) st).nextpartition = st.nextpartition := by
  intro rs
  induction rs with
  | nil => intro st; exact ⟨rfl, rfl⟩
  | cons fr rs ih =>
    intro st
    rw [List.foldl_cons]
    have h1 := walkRange_preserves readRanges st fr
    have h2 := ih (walkRange readRanges st fr)
    exact ⟨h2.1.trans h1.1, h2.2.trans h1.2⟩

theorem iterInv_of_walk {A : Type} (pset : PartitionSet)
    (readRanges : String → List (Int × Int) → List (Int × Int × A))
    (rs : List PRange) (st : IterState A) (hinv : IterInv pset st) :
    IterInv pset (rs.foldl (walkRange readRanges) st) := by
  have h := foldl_walkRange_preserves readRanges rs st
  exact ⟨h.1 ▸ hinv.1, by rw [h.2, h.1]; exact hinv.2.1, h.1 ▸ hinv.2.2⟩

/-- C8: the iterator yields partitions strictly in index order `0, 1, 2, …`
(the recorded emission indices are exactly `range k` in order), and each
partition is emitted only from a state in which `complete` holds for it:
every one of its ranges is present in `treedata` under its path with
exactly matching `(entrystart, entryend)`. -/
theorem C8_iterator_emits_in_order_when_complete {A : Type} (pset : PartitionSet)
    (readRanges : String → List (Int × Int) → List (Int × Int × A)) :
    (iterRun pset readRanges).yields.map Prod.fst =
      List.range (iterRun pset readRanges).yields.length ∧
    ∀ y ∈ (iterRun pset readRanges).yields,
      y.1 < pset.partitions.length ∧ complete pset y.2 y.1 = true := by
  have hstep : ∀ (parts : List Partition) (st : IterState A), IterInv pset st →
      IterInv pset (parts.foldl (walkPartition pset readRanges) st) := by
    intro parts
    induction parts with
    | nil => intro st h; exact h
    | cons part parts ih =>
      intro st h
      rw [List.foldl_cons]
      apply ih
      exact emitLoop_inv pset _ _ (le_refl _)
        (iterInv_of_walk pset readRanges part.ranges st h)
  have h0 : IterInv pset (⟨[], none, [], 0, []⟩ : IterState A) := by
    refine ⟨rfl, rfl, ?_⟩
    intro y hy
    simp at hy
  have hwalked := hstep pset.partitions _ h0
  have hfinal : IterInv pset (iterRun pset readRanges) := by
    unfold iterRun
    apply emitLoop_inv pset _ _ (le_refl _)
    cases hop : (pset.partitions.foldl (walkPartition pset readRanges)
        (⟨[], none, [], 0, []⟩ : IterState A)).oldpath with
    | none => simpa [hop] using hwalked
    | some op =>
      simp only [hop]
      exact ⟨hwalked.1, hwalked.2.1, hwalked.2.2⟩
  exact ⟨hfinal.1, hfinal.2.2⟩

/-- First file of the boundary input: two 50-entry baskets. -/
def branchA2 : BranchFile := ⟨[⟨0, 50, 1⟩, ⟨50, 50, 1⟩], []⟩

/-- Second file of the boundary input: one 30-entry basket. -/
def branchB2 : BranchFile := ⟨[⟨0, 30, 1⟩], []⟩

/-- Two files whose first file boundary coincides with a basket boundary. -/
def boundaryFiles : FillIn :=
  ⟨[⟨"a.root", 100, fun _ => branchA2⟩, ⟨"b.root", 30, fun _ => branchB2⟩],
   "events", [("b", "i4")], []⟩

/-- An `under` constraint that accepts one basket and rejects two — every
singleton satisfies it. -/
def underTwo : List BasketData → Bool := fun l => decide (l.length < 2)

/-- C6 counterexample: `fill` raises an error on an input where every
branch's growth always has its first basket satisfying `under`.  On
`boundaryFiles` with `underTwo` (one basket always fits, two never do) the
third partition's only candidate loses all its ranges to the
`entrystart != entryend` filter, and the next `while` condition evaluates
`partitions[-1].ranges[-1]` of the empty list: an `IndexError`, not the
unsatisfiable-constraint `ValueError`, and it identifies no branch, entry
or file. -/
theorem C6_error_without_unsatisfiable_first_basket :
    fill boundaryFiles underTwo byMin 10 = some (Except.error PyErr.indexError) ∧
    (∀ bd : BasketData, underTwo [bd] = true) ∧
    PyErr.indexError ≠ PyErr.unsatisfiable "b" 0 "a.root" := by
  refine ⟨?_, fun bd => rfl, by decide⟩
  simp [fill, fillLoop, loopDone, growOne, allCandidates, branchCandidate, branchStart,
    accumulate, filePathAt, underTwo, BranchFile.numbaskets, BranchFile.startBasket,
    BranchFile.basketstart, startBasketAux, branchA2, branchB2, boundaryFiles, toRanges,
    toRangesAux, alignFirst, byMin, mkPartitionSet, tilingAsserts, tilingAssertsAux,
    Partition.numentries, PRange.numentries, PyPartArg.indexAttr, List.range,
    List.range.loop, bind, Except.bind]

/-- Where the next partition's growth starts: the `(pathi, entryi)` pair of
lines 277–283, read off the last partition's last range (or `(0, 0)` for
the first partition). -/
def startPairOf (partitions : List Partition) : Nat × Int :=
  match partitions.getLast? with
  | none => (0, 0)
  | some p =>
    match p.ranges.getLast? with
    | none => (0, 0)
    | some r => (r.pathi, r.entryend)

/-- The starting basket index of lines 278/285–287: `0` for the first
partition, otherwise the scan `startBasket` over the start file's branch. -/
def startBasketiOf (F : FillIn) (bn : String) (partitions : List Partition) : Nat :=
  match partitions.getLast? with
  | none => 0
  | some _ =>
    match F.files.get? (startPairOf partitions).1 with
    | some f => (f.branchOf bn).startBasket (startPairOf partitions).2
    | none => 0

/-- The path string of the start file. -/
def startPathStringOf (F : FillIn) (partitions : List Partition) : String :=
  ((F.files.get? (startPairOf partitions).1).map TFile.path).getD ""

/-- The `BasketData` built from basket `basketi` of `branch` in file
`pathi` (the record of lines 300–307). -/
def mkBD (files : List TFile) (bn dt : String) (branch : BranchFile) (pathi basketi : Nat) :
    BasketData :=
  let bk := (branch.baskets.get? basketi).getD ⟨0, 0, 0⟩
  ⟨(filePathAt files pathi).getD "", bn, dt, branch.itemdims,
   bk.start, bk.start + bk.entries, bk.bytes, pathi⟩

/-- The first basket a branch's accumulation considers for the next
partition. -/
def firstBasketFor (F : FillIn) (bn dt : String) (partitions : List Partition) : BasketData :=
  match F.files.get? (startPairOf partitions).1 with
  | some f => mkBD F.files bn dt (f.branchOf bn) (startPairOf partitions).1
      (startBasketiOf F bn partitions)
  | none => ⟨"", bn, dt, [], 0, 0, 0, 0⟩

/-- Input hygiene: at least one file, and every branch of every file has at
least one basket, all of them nonempty (so the in-loop assertion of lines
309–310 cannot fire). -/
def Hygienic (F : FillIn) : Prop :=
  F.files ≠ [] ∧
  ∀ f ∈ F.files, ∀ bn : String,
    (f.branchOf bn).baskets ≠ [] ∧ ∀ bk ∈ (f.branchOf bn).baskets, bk.entries ≠ 0

/-- State hygiene: every partition built so far that is last has a last
range with a valid path index (what the previous loop iterations of a
non-crashing run leave behind; trivially true for no partitions). -/
def GoodTail (F : FillIn) (partitions : List Partition) : Prop :=
  ∀ p, partitions.getLast? = some p →
    ∃ r, p.ranges.getLast? = some r ∧ r.pathi < F.files.length

theorem startBasketAux_lt (b : BranchFile) (e : Int) :
    ∀ (n i : Nat), b.numbaskets - i ≤ n → i < b.numbaskets →
      startBasketAux b e i < b.numbaskets := by
  intro n
  induction n with
  | zero => intro i hn hi; omega
  | succ n ih =>
    intro i hn hi
    rw [startBasketAux]
    by_cases h1 : b.numbaskets ≤ i + 1
    · rw [if_pos h1]; exact hi
    · rw [if_neg h1]
      by_cases h2 : b.basketstart (i + 1) > e
      · rw [if_pos h2]; exact hi
      · rw [if_neg h2]
        exact ih (i + 1) (by omega) (by omega)

theorem startBasket_lt (b : BranchFile) (e : Int) (hne : b.baskets ≠ []) :
    b.startBasket e < b.numbaskets := by
  have h0 : 0 < b.numbaskets := by
    cases hb : b.baskets with
    | nil => exact absurd hb hne
    | cons x xs => simp [BranchFile.numbaskets, hb]
  exact startBasketAux_lt b e b.numbaskets 0 (by omega) h0

theorem accumulate_ok (files : List TFile) (bn dt : String) (branch : BranchFile)
    (under : List BasketData → Bool) (hne : branch.baskets ≠ [])
    (hb : ∀ bk ∈ branch.baskets, bk.entries ≠ 0) :
    ∀ (k pathi basketi : Nat) (acc : List BasketData),
      (files.length - pathi) * (branch.numbaskets + 2) + (branch.numbaskets + 1 - basketi) ≤ k →
      pathi < files.length →
      (∀ d ∈ acc, d.entrystart ≠ d.entryend) → acc ≠ [] →
      ∃ res pfin, accumulate files bn dt branch under pathi basketi acc = Except.ok (res, pfin)
        ∧ res ≠ [] := by
  intro k
  induction k with
  | zero =>
    intro pathi basketi acc hk hp _ _
    have : branch.numbaskets + 2 ≤ (files.length - pathi) * (branch.numbaskets + 2) := by
      have h1 : 1 ≤ files.length - pathi := by omega
      calc branch.numbaskets + 2 = 1 * (branch.numbaskets + 2) := by ring
        _ ≤ (files.length - pathi) * (branch.numbaskets + 2) :=
          Nat.mul_le_mul_right _ h1
    omega
  | succ k ih =>
    intro pathi basketi acc hk hp hacc hne2
    have hbd : ∀ (bk : Basket), bk ∈ branch.baskets → ∀ p : String, ∀ pieces : Nat,
        ∀ d ∈ acc ++ [(⟨p, bn, dt, branch.itemdims, bk.start, bk.start + bk.entries,
          bk.bytes, pieces⟩ : BasketData)], d.entrystart ≠ d.entryend := by
      intro bk hbk p pieces d hd
      rcases List.mem_append.1 hd with hold | hnew
      · exact hacc d hold
      · have hd2 : d = ⟨p, bn, dt, branch.itemdims, bk.start, bk.start + bk.entries,
            bk.bytes, pieces⟩ := by simpa using hnew
        rw [hd2]
        have := hb bk hbk
        simp only []
        intro he
        apply this
        omega
    by_cases hadv : branch.numbaskets ≤ basketi
    · rw [accumulate, dif_pos hadv]
      by_cases hlen : files.length ≤ pathi + 1
      · rw [dif_pos hlen]
        exact ⟨acc, pathi + 1, rfl, hne2⟩
      · rw [dif_neg hlen]
        obtain ⟨bk0, hbk0⟩ : ∃ bk0, branch.baskets.get? 0 = some bk0 := by
          cases hbs : branch.baskets with
          | nil => exact absurd hbs hne
          | cons x xs => exact ⟨x, rfl⟩
        have hp1 : pathi + 1 < files.length := by omega
        obtain ⟨p, hpp⟩ : ∃ p, filePathAt files (pathi + 1) = some p :=
          ⟨(files.get ⟨pathi + 1, hp1⟩).path, by
            unfold filePathAt
            rw [List.get?_eq_get hp1]
            rfl⟩
        rw [hbk0, hpp]
        simp only []
        have hmem0 : bk0 ∈ branch.baskets := by
          have := List.get?_eq_some.1 hbk0
          rcases this with ⟨hlt, hget⟩
          exact hget ▸ List.get_mem _ _ _
        have hass := hbd bk0 hmem0 p (pathi + 1)
        rw [if_neg (by
          intro hcon
          rcases List.any_eq_true.1 hcon with ⟨d, hd, hdd⟩
          exact hass d hd (by simpa using hdd))]
        by_cases hu : under (acc ++ [⟨p, bn, dt, branch.itemdims, bk0.start,
            bk0.start + bk0.entries, bk0.bytes, pathi + 1⟩]) = true
        · rw [if_neg (by simp [hu])]
          have hk2 : (files.length - (pathi + 1)) * (branch.numbaskets + 2) +
              (branch.numbaskets + 1 - 1) ≤ k := by
            have hstep : (files.length - (pathi + 1)) * (branch.numbaskets + 2) +
                (branch.numbaskets + 2) = (files.length - pathi) * (branch.numbaskets + 2) := by
              have h1 : files.length - pathi = (files.length - (pathi + 1)) + 1 := by omega
              rw [h1]
              ring
            omega
          exact ih (pathi + 1) 1 _ hk2 hp1 hass (by simp)
        · rw [if_pos (by simp [hu])]
          refine ⟨_, pathi + 1, rfl, ?_⟩
          rw [List.dropLast_concat]
          exact hne2
    · rw [accumulate, dif_neg hadv]
      have hblt : basketi < branch.baskets.length := by
        simp only [BranchFile.numbaskets] at hadv
        omega
      obtain ⟨bk, hbk⟩ : ∃ bk, branch.baskets.get? basketi = some bk :=
        ⟨branch.baskets.get ⟨basketi, hblt⟩, List.get?_eq_get hblt⟩
      obtain ⟨p, hpp⟩ : ∃ p, filePathAt files pathi = some p :=
        ⟨(files.get ⟨pathi, hp⟩).path, by
          unfold filePathAt
          rw [List.get?_eq_get hp]
          rfl⟩
      rw [hbk, hpp]
      simp only []
      have hmem : bk ∈ branch.baskets := by
        rcases List.get?_eq_some.1 hbk with ⟨hlt, hget⟩
        exact hget ▸ List.get_mem _ _ _
      have hass := hbd bk hmem p pathi
      rw [if_neg (by
        intro hcon
        rcases List.any_eq_true.1 hcon with ⟨d, hd, hdd⟩
        exact hass d hd (by simpa using hdd))]
      by_cases hu : under (acc ++ [⟨p, bn, dt, branch.itemdims, bk.start,
          bk.start + bk.entries, bk.bytes, pathi⟩]) = true
      · rw [if_neg (by simp [hu])]
        exact ih pathi (basketi + 1) _ (by omega) hp hass (by simp)
      · rw [if_pos (by simp [hu])]
        refine ⟨_, pathi, rfl, ?_⟩
        rw [List.dropLast_concat]
        exact hne2

theorem accumulate_first (files : List TFile) (bn dt : String) (branch : BranchFile)
    (under : List BasketData → Bool) (hne : branch.baskets ≠ [])
    (hb : ∀ bk ∈ branch.baskets, bk.entries ≠ 0)
    (pathi basketi : Nat) (hp : pathi < files.length) (hbk : basketi < branch.numbaskets) :
    (under [mkBD files bn dt branch pathi basketi] = false →
      accumulate files bn dt branch under pathi basketi [] = Except.ok ([], pathi)) ∧
    (under [mkBD files bn dt branch pathi basketi] = true →
      ∃ res pfin, accumulate files bn dt branch under pathi basketi [] = Except.ok (res, pfin)
        ∧ res ≠ []) := by
  have hblt : basketi < branch.baskets.length := by
    simp only [BranchFile.numbaskets] at hbk
    omega
  obtain ⟨bk, hbkg⟩ : ∃ bk, branch.baskets.get? basketi = some bk :=
    ⟨branch.baskets.get ⟨basketi, hblt⟩, List.get?_eq_get hblt⟩
  obtain ⟨p, hpp⟩ : ∃ p, filePathAt files pathi = some p :=
    ⟨(files.get ⟨pathi, hp⟩).path, by
      unfold filePathAt
      rw [List.get?_eq_get hp]
      rfl⟩
  have hmem : bk ∈ branch.baskets := by
    rcases List.get?_eq_some.1 hbkg with ⟨hlt, hget⟩
    exact hget ▸ List.get_mem _ _ _
  have hmk : mkBD files bn dt branch pathi basketi =
      ⟨p, bn, dt, branch.itemdims, bk.start, bk.start + bk.entries, bk.bytes, pathi⟩ := by
    unfold mkBD
    rw [hbkg, hpp]
    rfl
  have hass : ∀ d ∈ ([] : List BasketData) ++ [(⟨p, bn, dt, branch.itemdims, bk.start,
      bk.start + bk.entries, bk.bytes, pathi⟩ : BasketData)], d.entrystart ≠ d.entryend := by
    intro d hd
    have hd2 : d = ⟨p, bn, dt, branch.itemdims, bk.start, bk.start + bk.entries,
        bk.bytes, pathi⟩ := by simpa using hd
    rw [hd2]
    have := hb bk hmem
    simp only []
    intro he
    apply this
    omega
  have hstep : ∀ P : Except PyErr (List BasketData × Nat) → Prop,
      (P (if ¬ under ([] ++ [(⟨p, bn, dt, branch.itemdims, bk.start, bk.start + bk.entries,
            bk.bytes, pathi⟩ : BasketData)]) = true then
          Except.ok ((([] : List BasketData) ++ [(⟨p, bn, dt, branch.itemdims, bk.start,
            bk.start + bk.entries, bk.bytes, pathi⟩ : BasketData)]).dropLast, pathi)
        else accumulate files bn dt branch under pathi (basketi + 1)
          ([] ++ [⟨p, bn, dt, branch.itemdims, bk.start, bk.start + bk.entries,
            bk.bytes, pathi⟩]))) →
      P (accumulate files bn dt branch under pathi basketi []) := by
    intro P hP
    rw [accumulate, dif_neg (show ¬ branch.numbaskets ≤ basketi by omega), hbkg, hpp]
    simp only []
    rw [if_neg (by
      intro hcon
      rcases List.any_eq_true.1 hcon with ⟨d, hd, hdd⟩
      exact hass d hd (by simpa using hdd))]
    exact hP
  constructor
  · intro hu
    rw [hmk] at hu
    apply hstep (fun r => r = Except.ok ([], pathi))
    rw [if_pos (by simp [hu])]
    rfl
  · intro hu
    rw [hmk] at hu
    apply hstep (fun r => ∃ res pfin, r = Except.ok (res, pfin) ∧ res ≠ [])
    rw [if_neg (by simp [hu])]
    exact accumulate_ok files bn dt branch under hne hb
      ((files.length - pathi) * (branch.numbaskets + 2) + (branch.numbaskets + 1 - (basketi + 1)))
      pathi (basketi + 1) _ (le_refl _) hp hass (by simp)

theorem branchStart_spec (F : FillIn) (bn : String) (partitions : List Partition)
    (hfne : F.files ≠ []) (hgt : GoodTail F partitions) :
    ∃ f, F.files.get? (startPairOf partitions).1 = some f ∧
      branchStart F bn partitions = Except.ok ((startPairOf partitions).1,
        (startPairOf partitions).2, startBasketiOf F bn partitions, f.branchOf bn) := by
  cases hlp : partitions.getLast? with
  | none =>
    obtain ⟨f0, fs, hfc⟩ : ∃ f0 fs, F.files = f0 :: fs := by
      cases hf : F.files with
      | nil => exact absurd hf hfne
      | cons f0 fs => exact ⟨f0, fs, rfl⟩
    refine ⟨f0, ?_, ?_⟩
    · simp [startPairOf, hlp, hfc]
    · unfold branchStart
      rw [hlp, hfc]
      simp [startPairOf, startBasketiOf, hlp]
  | some p =>
    obtain ⟨r, hlr, hpl⟩ := hgt p hlp
    obtain ⟨f, hgf⟩ : ∃ f, F.files.get? r.pathi = some f :=
      ⟨F.files.get ⟨r.pathi, hpl⟩, List.get?_eq_get hpl⟩
    have hsp : startPairOf partitions = (r.pathi, r.entryend) := by
      simp [startPairOf, hlp, hlr]
    refine ⟨f, by rw [hsp]; exact hgf, ?_⟩
    simp only [branchStart, hlp, hlr, hgf, hsp, startBasketiOf]

theorem startBasketiOf_lt (F : FillIn) (bn : String) (partitions : List Partition) (f : TFile)
    (hgf : F.files.get? (startPairOf partitions).1 = some f)
    (hne : (f.branchOf bn).baskets ≠ []) :
    startBasketiOf F bn partitions < (f.branchOf bn).numbaskets := by
  have h0 : 0 < (f.branchOf bn).numbaskets := by
    cases hb : (f.branchOf bn).baskets with
    | nil => exact absurd hb hne
    | cons x xs => simp [BranchFile.numbaskets, hb]
  unfold startBasketiOf
  cases partitions.getLast? with
  | none => exact h0
  | some p =>
    rw [hgf]
    exact startBasket_lt _ _ hne

theorem toRangesAux_ne_nil : ∀ (ds : List BasketData) (rs : List PRange),
    rs ≠ [] → toRangesAux rs ds ≠ [] := by
  intro ds
  induction ds with
  | nil => intro rs h; simpa [toRangesAux] using h
  | cons d ds ih =>
    intro rs h
    show toRangesAux rs (d :: ds) ≠ []
    rw [toRangesAux]
    cases hl : rs.getLast? with
    | none => exact absurd (List.getLast?_eq_none_iff.1 hl) h
    | some r =>
      show (if r.pathi = d.pathi
          then toRangesAux (rs.dropLast ++ [{ r with entryend := d.entryend }]) ds
          else toRangesAux (rs ++ [⟨d.path, d.entrystart, d.entryend, d.pathi⟩]) ds) ≠ []
      by_cases hpe : r.pathi = d.pathi
      · rw [if_pos hpe]
        exact ih _ (by simp)
      · rw [if_neg hpe]
        exact ih _ (by simp)

theorem toRanges_ne_nil (bds : List BasketData) (h : bds ≠ []) : toRanges bds ≠ [] := by
  cases bds with
  | nil => exact absurd rfl h
  | cons d ds =>
    show toRangesAux [] (d :: ds) ≠ []
    rw [toRangesAux]
    exact toRangesAux_ne_nil ds _ (by simp)

theorem branchCandidate_spec (F : FillIn) (under : List BasketData → Bool)
    (partitions : List Partition) (partitioni : Nat) (bn dt : String)
    (hyg : Hygienic F) (hgt : GoodTail F partitions) :
    (under [firstBasketFor F bn dt partitions] = false →
      branchCandidate F under partitions partitioni bn dt =
        Except.error (PyErr.unsatisfiable bn (startPairOf partitions).2
          (startPathStringOf F partitions))) ∧
    (under [firstBasketFor F bn dt partitions] = true →
      ∃ c, branchCandidate F under partitions partitioni bn dt = Except.ok c) := by
  obtain ⟨f, hgf, hbs⟩ := branchStart_spec F bn partitions hyg.1 hgt
  have hfmem : f ∈ F.files := List.get?_mem hgf
  have hbne : (f.branchOf bn).baskets ≠ [] := (hyg.2 f hfmem bn).1
  have hbent : ∀ bk ∈ (f.branchOf bn).baskets, bk.entries ≠ 0 := (hyg.2 f hfmem bn).2
  have hplt : (startPairOf partitions).1 < F.files.length := (List.get?_eq_some.1 hgf).1
  have hbklt := startBasketiOf_lt F bn partitions f hgf hbne
  have hfb : firstBasketFor F bn dt partitions =
      mkBD F.files bn dt (f.branchOf bn) (startPairOf partitions).1
        (startBasketiOf F bn partitions) := by
    unfold firstBasketFor
    rw [hgf]
  have hfp : filePathAt F.files (startPairOf partitions).1 = some f.path := by
    unfold filePathAt
    rw [hgf]
    rfl
  have hsps : startPathStringOf F partitions = f.path := by
    unfold startPathStringOf
    rw [hgf]
    rfl
  have hacc := accumulate_first F.files bn dt (f.branchOf bn) under hbne hbent
    (startPairOf partitions).1 (startBasketiOf F bn partitions) hplt hbklt
  constructor
  · intro hu
    rw [hfb] at hu
    have hr := hacc.1 hu
    unfold branchCandidate
    rw [hbs]
    simp only [Bind.bind, Except.bind, hr, List.isEmpty_nil, if_pos, hfp, hsps]
  · intro hu
    rw [hfb] at hu
    obtain ⟨res, pfin, hr, hres⟩ := hacc.2 hu
    unfold branchCandidate
    rw [hbs]
    simp only [Bind.bind, Except.bind, hr]
    have hie : res.isEmpty = false := by
      cases res with
      | nil => exact absurd rfl hres
      | cons a l => rfl
    rw [if_neg (by simp [hie])]
    obtain ⟨r0, rs0, hrr⟩ : ∃ r0 rs0, toRanges res = r0 :: rs0 := by
      cases hh : toRanges res with
      | nil => exact absurd hh (toRanges_ne_nil res hres)
      | cons r0 rs0 => exact ⟨r0, rs0, rfl⟩
    obtain ⟨al, hal⟩ : ∃ al, alignFirst partitions (toRanges res) = Except.ok al := by
      cases hlp : partitions.getLast? with
      | none =>
        refine ⟨toRanges res, ?_⟩
        unfold alignFirst
        rw [hlp]
      | some p =>
        obtain ⟨rr, hlr, _⟩ := hgt p hlp
        simp only [alignFirst, hlp, hlr, hrr]
        by_cases hpe : rr.pathi = r0.pathi
        · rw [if_pos hpe]
          exact ⟨_, rfl⟩
        · rw [if_neg hpe]
          exact ⟨_, rfl⟩
    exact ⟨⟨partitioni, al.filter (fun r => r.entrystart != r.entryend)⟩, by
      simp only [hal]⟩

theorem allCandidates_spec (F : FillIn) (under : List BasketData → Bool)
    (partitions : List Partition) (partitioni : Nat)
    (hyg : Hygienic F) (hgt : GoodTail F partitions) :
    ∀ sel : List (String × String),
      ((∃ e, allCandidates F under partitions partitioni sel = Except.error e) ↔
        ∃ bd ∈ sel, under [firstBasketFor F bd.1 bd.2 partitions] = false) ∧
      (∀ e, allCandidates F under partitions partitioni sel = Except.error e →
        ∃ bn dt, (bn, dt) ∈ sel ∧ under [firstBasketFor F bn dt partitions] = false ∧
          e = PyErr.unsatisfiable bn (startPairOf partitions).2
            (startPathStringOf F partitions)) := by
  intro sel
  induction sel with
  | nil =>
    constructor
    · constructor
      · rintro ⟨e, he⟩
        exact absurd he (by simp [allCandidates])
      · rintro ⟨bd, hbd, _⟩
        simp at hbd
    · intro e he
      exact absurd he (by simp [allCandidates])
  | cons hd rest ih =>
    obtain ⟨bn, dt⟩ := hd
    have hbc := branchCandidate_spec F under partitions partitioni bn dt hyg hgt
    cases hu : under [firstBasketFor F bn dt partitions] with
    | false =>
      have hc := hbc.1 hu
      constructor
      · constructor
        · intro _
          exact ⟨(bn, dt), List.mem_cons_self _ _, hu⟩
        · intro _
          refine ⟨PyErr.unsatisfiable bn (startPairOf partitions).2
            (startPathStringOf F partitions), ?_⟩
          simp only [allCandidates, hc, Bind.bind, Except.bind]
      · intro e he
        simp only [allCandidates, hc, Bind.bind, Except.bind] at he
        exact ⟨bn, dt, List.mem_cons_self _ _, hu, (Except.error.inj he).symm⟩
    | true =>
      obtain ⟨c, hc⟩ := hbc.2 hu
      cases hres : allCandidates F under partitions partitioni rest with
      | error e2 =>
        have hrest := (ih.1).2
        constructor
        · constructor
          · intro _
            rcases ih.2 e2 hres with ⟨bn2, dt2, hmem2, hu2, _⟩
            exact ⟨(bn2, dt2), List.mem_cons_of_mem _ hmem2, hu2⟩
          · intro _
            refine ⟨e2, ?_⟩
            simp only [allCandidates, hc, hres, Bind.bind, Except.bind]
        · intro e he
          simp only [allCandidates, hc, hres, Bind.bind, Except.bind] at he
          rcases ih.2 e2 hres with ⟨bn2, dt2, hmem2, hu2, hshape⟩
          exact ⟨bn2, dt2, List.mem_cons_of_mem _ hmem2, hu2,
            (Except.error.inj he) ▸ hshape⟩
      | ok tl =>
        constructor
        · constructor
          · rintro ⟨e, he⟩
            simp only [allCandidates, hc, hres, Bind.bind, Except.bind] at he
            exact Except.noConfusion he
          · rintro ⟨bd, hbd, hbdu⟩
            rcases List.mem_cons.1 hbd with heq | htail
            · rw [heq] at hbdu
              rw [hbdu] at hu
              cases hu
            · have : ∃ e, allCandidates F under partitions partitioni rest =
                  Except.error e := (ih.1).2 ⟨bd, htail, hbdu⟩
              rcases this with ⟨e, he⟩
              rw [hres] at he
              cases he
        · intro e he
          simp only [allCandidates, hc, hres, Bind.bind, Except.bind] at he
          exact Except.noConfusion he

/-- C6, amended.  Each step of partition growth (one iteration of the
`while` loop over all selected branches) raises the unsatisfiable-constraint
error iff some branch's very first basket already violates `under`, and the
error identifies the branch name, the starting entry and the starting file
path.  (The full `iff` at the level of whole-`fill` runs is false: the
`C6_error_without_unsatisfiable_first_basket` input makes `fill` raise an
`IndexError` on an empty-ranged partition with every first basket
satisfying `under`.)  The hypotheses are input hygiene: at least one file,
no branch with zero baskets or an empty basket, and a well-formed previous
partition tail. -/
theorem C6_growth_error_iff_first_basket_violates (F : FillIn)
    (under : List BasketData → Bool) (byF : List Partition → Partition)
    (partitions : List Partition) (partitioni : Nat)
    (hyg : Hygienic F) (hgt : GoodTail F partitions) :
    ((∃ e, growOne F under byF partitions partitioni = Except.error e) ↔
      ∃ bd ∈ F.toget, under [firstBasketFor F bd.1 bd.2 partitions] = false) ∧
    (∀ e, growOne F under byF partitions partitioni = Except.error e →
      ∃ bn dt, (bn, dt) ∈ F.toget ∧ under [firstBasketFor F bn dt partitions] = false ∧
        e = PyErr.unsatisfiable bn (startPairOf partitions).2
          (startPathStringOf F partitions)) := by
  have hall := allCandidates_spec F under partitions partitioni hyg hgt F.toget
  cases hres : allCandidates F under partitions partitioni F.toget with
  | error e2 =>
    have hg : growOne F under byF partitions partitioni = Except.error e2 := by
      simp only [growOne, hres, Bind.bind, Except.bind]
    constructor
    · constructor
      · intro _
        exact (hall.1).1 ⟨e2, hres⟩
      · intro _
        exact ⟨e2, hg⟩
    · intro e he
      rw [hg] at he
      exact (Except.error.inj he) ▸ hall.2 e2 hres
  | ok cands =>
    have hg : growOne F under byF partitions partitioni = Except.ok (byF cands) := by
      simp only [growOne, hres, Bind.bind, Except.bind]
    constructor
    · constructor
      · rintro ⟨e, he⟩
        rw [hg] at he
        cases he
      · intro hbad
        rcases (hall.1).2 hbad with ⟨e, he⟩
        rw [hres] at he
        cases he
    · intro e he
      rw [hg] at he
      cases he

/-- One file, one branch with a single nonempty basket. -/
def oneFileIn : FillIn :=
  ⟨[⟨"a.root", 10, fun _ => ⟨[⟨0, 10, 4⟩], []⟩⟩], "t", [("b", "i4")], []⟩

/-- An `under` constraint nothing satisfies. -/
def underNever : List BasketData → Bool := fun _ => false

/-- Witness for C6: with an unsatisfiable `under`, the first growth step
errors. -/
theorem C6_growth_error_iff_first_basket_violates_witness :
    Hygienic oneFileIn ∧ GoodTail oneFileIn [] ∧
    (∃ e, growOne oneFileIn underNever byMin [] 0 = Except.error e) := by
  have hyg : Hygienic oneFileIn := by
    constructor
    · simp [oneFileIn]
    · intro f hf bn
      have hf2 : f = ⟨"a.root", 10, fun _ => ⟨[⟨0, 10, 4⟩], []⟩⟩ := by
        simpa [oneFileIn] using hf
      subst hf2
      exact ⟨by simp, by intro bk hbk; simp at hbk; simp [hbk]⟩
  have hgt : GoodTail oneFileIn [] := by
    intro p hp
    simp at hp
  exact ⟨hyg, hgt,
    ((C6_growth_error_iff_first_basket_violates oneFileIn underNever byMin [] 0 hyg hgt).1).2
      ⟨("b", "i4"), by simp [oneFileIn], rfl⟩⟩

end UprootModel
